import Mathlib

/-!
# Ett: relay loops, AEAD framing and XOR obfuscation

A shallow embedding of `src/cryptography.go` and `src/main.go`.

* Byte slices are lists of `UInt8`.  Go results `(value, error)` are pairs whose
  error component is an `Option Error` (`none` is Go's `nil`).
* A connection's read side is the list of segments the transport still has to
  deliver; `Read` hands out at most as many bytes as the caller's buffer holds
  and fails once the segments are used up.  A connection's write side records
  the payload of every successful `Write` in call order.
* 16-bit and 32-bit unsigned arithmetic is arithmetic on `Nat` modulo `2^16`
  and `2^32`.
* A slice expression whose bound exceeds the slice is a run-time panic,
  modelled by `Except Panic`.
* Library code (the AEAD, `math/rand`, `io.ReadFull`, `encoding/binary`) is
  modelled after its documentation; the AEAD and the pseudo-random source are
  parameters.
* The relay loops run forever in Go; here they take a bound on the number of
  iterations and return `none` when it is used up.
-/

namespace Ett

abbrev Bytes := List UInt8

/-- Go `error` values met by the relay code. -/
inductive Error where
  /-- The value `io.EOF`: the stream has ended. -/
  | EOF
  /-- The value `io.ErrUnexpectedEOF`. -/
  | ErrUnexpectedEOF
  /-- An error made by `errors.New`. -/
  | New (msg : String)
  /-- Authentication failure reported by the AEAD `Open`. -/
  | openFailed
  /-- Key rejected by `aes.NewCipher`. -/
  | keySize
  /-- A failed write on a connection. -/
  | writeFailed
  deriving DecidableEq, Repr

/-- Run-time panics. -/
inductive Panic where
  /-- Slice bounds out of range: `[:hi]` or `[lo:]` against a slice of `cap` bytes. -/
  | sliceBounds (bound cap : Nat)
  deriving DecidableEq, Repr

/-! ## Connections -/

/-- Read side of a connection: the segments still to be delivered. -/
structure Reader where
  pending : List Bytes
  deriving DecidableEq, Repr

/-- The call `Read(p)` with `len(p) = n`: the bytes stored in `p[:size]`, the error, and the
reader afterwards.  A segment longer than the buffer is delivered in pieces. -/
def Reader.Read (r : Reader) (n : Nat) : Bytes × Option Error × Reader :=
  match r.pending with
  | [] => ([], some Error.EOF, r)
  | seg :: rest =>
    if seg.length ≤ n then (seg, none, ⟨rest⟩)
    else (seg.take n, none, ⟨seg.drop n :: rest⟩)

/-- Write side of a connection: the payloads written so far and, when `budget` is `some k`,
the number of writes that will still succeed (`none`: all of them). -/
structure Writer where
  written : List Bytes
  budget : Option Nat
  deriving DecidableEq, Repr

/-- The call `Write(p)`. -/
def Writer.Write (w : Writer) (p : Bytes) : Nat × Option Error × Writer :=
  match w.budget with
  | some 0 => (0, some Error.writeFailed, w)
  | some (k + 1) => (p.length, none, ⟨w.written ++ [p], some k⟩)
  | none => (p.length, none, ⟨w.written ++ [p], none⟩)

/-! ## `math/rand` -/

/-- A `*rand.Rand`: the byte stream of its source and the number of bytes drawn so far.
`Rand.Read` keeps the unused bytes of the last 63-bit value between calls, so the bytes it
hands out do not depend on how the calls are cut. -/
structure Rand where
  stream : Nat → UInt8
  pos : Nat

/-- The call `Read(p)` with `len(p) = n`; it always fills `p` and never fails. -/
def Rand.Read (g : Rand) (n : Nat) : Bytes × Rand :=
  ((List.range n).map (fun i => g.stream (g.pos + i)), { g with pos := g.pos + n })

/-- The expression `rand.New(rand.NewSource(seed))`; `source` gives the byte stream of each seed. -/
def NewRand (source : Int → Nat → UInt8) (seed : Int) : Rand :=
  ⟨source seed, 0⟩

/-! ## `src/cryptography.go`: XOR wrappers -/

structure XorWriter where
  entopy : Rand
  out : Writer
  buf : Bytes

def NewXorWriter (out : Writer) (entopy : Rand) : XorWriter :=
  ⟨entopy, out, List.replicate 512 0⟩

/-- Go `func (w XorWriter) Write(p []byte) (n int, err error)`.  The receiver is a copy, so a
scratch buffer allocated here is dropped on return, while bytes stored in the old buffer stay. -/
def XorWriter.Write (w : XorWriter) (p : Bytes) : Nat × Option Error × XorWriter :=
  let grown := decide (w.buf.length < p.length)
  let buf := if grown then List.replicate p.length 0 else w.buf
  let (ks, entopy) := w.entopy.Read p.length
  let buf := ks ++ buf.drop p.length
  let p := List.zipWith (fun x k => x ^^^ k) p buf
  let (n, err, out) := w.out.Write p
  (n, err, ⟨entopy, out, if grown then w.buf else buf⟩)

structure XorReader where
  entopy : Rand
  inp : Reader
  buf_inp : Bytes
  buf_en : Bytes

def NewXorReader (inp : Reader) (entopy : Rand) : XorReader :=
  ⟨entopy, inp, List.replicate 2048 0, List.replicate 2048 0⟩

/-- Go `func (r XorReader) Read(p []byte) (n int, err error)` with `len(p) = n`: the bytes stored
in `p[:size]`, the error and the reader afterwards.  Both scratch buffers are allocated
together and have the same length. -/
def XorReader.Read (r : XorReader) (n : Nat) : Bytes × Option Error × XorReader :=
  let grown := decide (r.buf_inp.length < n)
  let buf_inp := if grown then List.replicate n 0 else r.buf_inp
  let buf_en := if grown then List.replicate n 0 else r.buf_en
  let (data, err, inp) := r.inp.Read n
  let buf_inp := data ++ buf_inp.drop data.length
  match err with
  | some e => ([], some e, ⟨r.entopy, inp, if grown then r.buf_inp else buf_inp, r.buf_en⟩)
  | none =>
    let (ks, entopy) := r.entopy.Read data.length
    let buf_en := ks ++ buf_en.drop data.length
    let p := List.zipWith (fun x k => x ^^^ k) (buf_inp.take data.length) buf_en
    (p, none, ⟨entopy, inp, if grown then r.buf_inp else buf_inp,
      if grown then r.buf_en else buf_en⟩)

/-! ## `io.Reader`, `io.Writer` values and `io.ReadFull` -/

/-- The `io.Reader` a relay reads from: the connection itself or an `XorReader` around it. -/
inductive Inp where
  | plain (r : Reader)
  | xor (r : XorReader)

def Inp.Read : Inp → Nat → Bytes × Option Error × Inp
  | .plain r, n => let (d, e, r) := r.Read n; (d, e, .plain r)
  | .xor r, n => let (d, e, r) := r.Read n; (d, e, .xor r)

/-- The connection under an `io.Reader`. -/
def Inp.base : Inp → Reader
  | .plain r => r
  | .xor r => r.inp

/-- The `io.Writer` a relay writes to: the connection itself or an `XorWriter` around it. -/
inductive Out where
  | plain (w : Writer)
  | xor (w : XorWriter)

def Out.Write : Out → Bytes → Nat × Option Error × Out
  | .plain w, p => let (n, e, w) := w.Write p; (n, e, .plain w)
  | .xor w, p => let (n, e, w) := w.Write p; (n, e, .xor w)

/-- The connection under an `io.Writer`. -/
def Out.base : Out → Writer
  | .plain w => w
  | .xor w => w.out

/-- The loop `for n < min && err == nil` of `io.ReadAtLeast` with `min = len(buf) = len`;
`acc` is `buf[:n]`.  A `Read` that does not fill the rest of the buffer uses up a segment,
so the loop body runs at most once more than there are segments: that is the bound `k`. -/
def readFullLoop : Nat → Inp → Nat → Bytes → Bytes × Option Error × Inp
  | 0, r, _, acc => (acc, none, r)
  | k + 1, r, len, acc =>
    if acc.length < len then
      let (d, err, r) := r.Read (len - acc.length)
      match err with
      | none => readFullLoop k r len (acc ++ d)
      | some e => (acc ++ d, some e, r)
    else (acc, none, r)

/-- The call `io.ReadFull(r, buf)` with `len(buf) = len`: the bytes stored in `buf[:n]`, the error and
the reader afterwards. -/
def ReadFull (r : Inp) (len : Nat) : Bytes × Option Error × Inp :=
  let (data, err, r) := readFullLoop (r.base.pending.length + 1) r len []
  if len ≤ data.length then (data, none, r)
  else if 0 < data.length ∧ err = some Error.EOF then (data, some Error.ErrUnexpectedEOF, r)
  else (data, err, r)

/-! ## `encoding/binary` -/

/-- The call `binary.BigEndian.PutUint32(b, v)`: the four bytes stored in `b`. -/
def PutUint32 (v : Nat) : Bytes :=
  [UInt8.ofNat (v / 2 ^ 24), UInt8.ofNat (v / 2 ^ 16), UInt8.ofNat (v / 2 ^ 8), UInt8.ofNat v]

/-- The call `binary.BigEndian.Uint32(b)`. -/
def Uint32 (b : Bytes) : Nat :=
  match b with
  | b0 :: b1 :: b2 :: b3 :: _ =>
    b0.toNat * 2 ^ 24 + b1.toNat * 2 ^ 16 + b2.toNat * 2 ^ 8 + b3.toNat
  | _ => 0

/-! ## `src/cryptography.go`: AESCrypt -/

/-- A `cipher.AEAD`.  `sealed nonce plaintext additionalData` is what `Seal` appends to `dst`:
the encrypted plaintext followed by the tag.  `Open` is called with `dst = nil`. -/
structure AEAD where
  NonceSize : Nat
  Overhead : Nat
  sealed : Bytes → Bytes → Bytes → Bytes
  Open : Bytes → Bytes → Bytes → Bytes × Option Error

/-- The call `Seal(dst, nonce, plaintext, additionalData)` appends to `dst` and returns the result. -/
def AEAD.Seal (g : AEAD) (dst nonce plaintext additionalData : Bytes) : Bytes :=
  dst ++ g.sealed nonce plaintext additionalData

/-- Guarantee of the AEAD: `Open` inverts `Seal` under the same nonce and associated data. -/
def AEAD.OpenInvertsSeal (g : AEAD) : Prop :=
  ∀ nonce plaintext ad : Bytes, nonce.length = g.NonceSize →
    g.Open nonce (g.sealed nonce plaintext ad) ad = (plaintext, none)

/-- Guarantee of the AEAD: sealing adds exactly `Overhead` bytes (the tag). -/
def AEAD.SealLength (g : AEAD) : Prop :=
  ∀ nonce plaintext ad : Bytes, (g.sealed nonce plaintext ad).length = plaintext.length + g.Overhead

/-- Nonce size of `cipher.NewGCM`. -/
def gcmStandardNonceSize : Nat := 12

/-- Tag size of `cipher.NewGCM`. -/
def gcmTagSize : Nat := 16

/-- The packages `crypto/aes` and `crypto/cipher`. -/
structure Crypto where
  Block : Type
  NewCipher : Bytes → Except Error Block
  NewGCM : Block → Except Error AEAD

structure AESCrypt where
  gcm : AEAD

def newAESCrypt (lib : Crypto) (key : Bytes) : Except Error AESCrypt :=
  match lib.NewCipher key with
  | .error err => .error err
  | .ok block =>
    match lib.NewGCM block with
    | .error err => .error err
    | .ok gcm => .ok ⟨gcm⟩

/-- Go `func (c *AESCrypt) Encrypt(plain []byte) ([]byte, error)`; `randReader` is
`crypto/rand.Reader`, returned as it is after the call. -/
def AESCrypt.Encrypt (c : AESCrypt) (randReader : Reader) (plain : Bytes) :
    Bytes × Option Error × Reader :=
  let (nonce, err, rd) := ReadFull (.plain randReader) c.gcm.NonceSize
  match err with
  | some e => ([], some e, rd.base)
  | none => (c.gcm.Seal nonce nonce plain [], none, rd.base)

/-- The slice expression `b[:hi]`. -/
def sliceTo (b : Bytes) (hi : Nat) : Except Panic Bytes :=
  if hi ≤ b.length then .ok (b.take hi) else .error (.sliceBounds hi b.length)

/-- The slice expression `b[lo:]`. -/
def sliceFrom (b : Bytes) (lo : Nat) : Except Panic Bytes :=
  if lo ≤ b.length then .ok (b.drop lo) else .error (.sliceBounds lo b.length)

/-- Go `func (c *AESCrypt) Decrypt(crypted []byte) ([]byte, error)`. -/
def AESCrypt.Decrypt (c : AESCrypt) (crypted : Bytes) : Except Panic (Bytes × Option Error) :=
  let nonceSize := c.gcm.NonceSize
  if crypted.length < nonceSize then
    .ok ([], some (Error.New "Too short crypted text"))
  else
    match sliceTo crypted nonceSize, sliceFrom crypted nonceSize with
    | .ok nonce, .ok crypted => .ok (c.gcm.Open nonce crypted [])
    | .error p, _ => .error p
    | _, .error p => .error p

/-! ## `src/main.go`: relay loops -/

/-- How a relay function ended. -/
inductive Exit where
  | returned
  | panicked (p : Panic)
  deriving DecidableEq, Repr

/-- The two connections after a relay function has ended. -/
structure Relay where
  input : Reader
  output : Writer
  inputClosed : Bool
  outputClosed : Bool
  exit : Exit
  deriving DecidableEq, Repr

/-- The working loop of `shift`. -/
def shiftLoop : Nat → Reader → Out → Nat → Option (Reader × Out)
  | 0, _, _, _ => none
  | k + 1, input, out, bufSize =>
    let (data, err, input) := input.Read bufSize
    match err with
    | some _ => some (input, out)
    | none =>
      let (_, err, out) := out.Write data
      match err with
      | some _ => some (input, out)
      | none => shiftLoop k input out bufSize

/-- Go `func shift(input io.ReadCloser, output io.WriteCloser, bufSize uint16, seed *int64)`.
The deferred calls close both connections when the loop ends. -/
def shift (source : Int → Nat → UInt8) (k : Nat) (input : Reader) (output : Writer)
    (bufSize : Nat) (seed : Option Int) : Option Relay :=
  let out : Out :=
    match seed with
    | none => .plain output
    | some s => .xor (NewXorWriter output (NewRand source s))
  match shiftLoop k input out bufSize with
  | none => none
  | some (input, out) => some ⟨input, out.base, true, true, .returned⟩

/-- The working loop of `encr`; `randReader` is `crypto/rand.Reader`. -/
def encrLoop : Nat → Reader → Out → Nat → AESCrypt → Reader → Option (Reader × Out)
  | 0, _, _, _, _, _ => none
  | k + 1, input, out, bufSize, encryptor, randReader =>
    let (plainData, err, input) := input.Read bufSize
    match err with
    | some _ => some (input, out)
    | none =>
      let (cryptedData, err, randReader) := encryptor.Encrypt randReader plainData
      match err with
      | some _ => some (input, out)
      | none =>
        let ln := cryptedData.length % 2 ^ 32
        let lnb := PutUint32 ln
        let toWrite := lnb ++ cryptedData
        let (_, err, out) := out.Write toWrite
        match err with
        | some _ => some (input, out)
        | none => encrLoop k input out bufSize encryptor randReader

/-- Go `func encr(input io.ReadCloser, output io.WriteCloser, bufSize, minimal_chunk uint16,
encryptor Encryptor, seed *int64)`. -/
def encr (source : Int → Nat → UInt8) (k : Nat) (input : Reader) (output : Writer)
    (bufSize minimal_chunk : Nat) (encryptor : AESCrypt) (seed : Option Int)
    (randReader : Reader) : Option Relay :=
  let _ := minimal_chunk
  let out : Out :=
    match seed with
    | none => .plain output
    | some s => .xor (NewXorWriter output (NewRand source s))
  match encrLoop k input out bufSize encryptor randReader with
  | none => none
  | some (input, out) => some ⟨input, out.base, true, true, .returned⟩

/-- Length of the buffer `make([]byte, bufSize*2)` of `decr`: the product is a `uint16`. -/
def decrBufLen (bufSize : Nat) : Nat :=
  bufSize * 2 % 2 ^ 16

/-- The working loop of `decr`; `bufLen` is `len(buf)`, which is also its capacity. -/
def decrLoop : Nat → Inp → Writer → Nat → AESCrypt → Option (Inp × Writer × Exit)
  | 0, _, _, _, _ => none
  | k + 1, inp, output, bufLen, decryptor =>
    let (lnb, err, inp) := ReadFull inp 4
    match err with
    | some _ => some (inp, output, .returned)
    | none =>
      let ln := Uint32 lnb
      if bufLen < ln then some (inp, output, .panicked (.sliceBounds ln bufLen))
      else
        let (cryptedData, err, inp) := ReadFull inp ln
        match err with
        | some _ => some (inp, output, .returned)
        | none =>
          match decryptor.Decrypt cryptedData with
          | .error p => some (inp, output, .panicked p)
          | .ok (_, some _) => some (inp, output, .returned)
          | .ok (plainData, none) =>
            let (_, err, output) := output.Write plainData
            match err with
            | some _ => some (inp, output, .returned)
            | none => decrLoop k inp output bufLen decryptor

/-- Go `func decr(input io.ReadCloser, output io.WriteCloser, bufSize uint16,
decryptor Decryptor, seed *int64)`.  The deferred calls close both connections when the
function returns and also when it panics. -/
def decr (source : Int → Nat → UInt8) (k : Nat) (input : Reader) (output : Writer)
    (bufSize : Nat) (decryptor : AESCrypt) (seed : Option Int) : Option Relay :=
  let inp : Inp :=
    match seed with
    | none => .plain input
    | some s => .xor (NewXorReader input (NewRand source s))
  match decrLoop k inp output (decrBufLen bufSize) decryptor with
  | none => none
  | some (inp, output, exit) => some ⟨inp.base, output, true, true, exit⟩

/-! ## A small AEAD for evaluating the definitions -/

/-- An AEAD with the sizes of AES-GCM that appends a constant tag. -/
def toyAEAD : AEAD where
  NonceSize := gcmStandardNonceSize
  Overhead := gcmTagSize
  sealed := fun _ plaintext _ => plaintext ++ List.replicate gcmTagSize 0
  Open := fun _ ciphertext _ =>
    if gcmTagSize ≤ ciphertext.length ∧
        ciphertext.drop (ciphertext.length - gcmTagSize) = List.replicate gcmTagSize 0 then
      (ciphertext.take (ciphertext.length - gcmTagSize), none)
    else ([], some Error.openFailed)

/-- A `crypto/aes` and `crypto/cipher` that accept the AES key lengths and build `toyAEAD`. -/
def toyCrypto : Crypto where
  Block := Bytes
  NewCipher := fun key =>
    if key.length = 16 ∨ key.length = 24 ∨ key.length = 32 then .ok key else .error Error.keySize
  NewGCM := fun _ => .ok toyAEAD

/-- A pseudo-random source for evaluating the definitions. -/
def toySource : Int → Nat → UInt8 :=
  fun seed i => UInt8.ofNat (seed.toNat + 3 * i + 1)

/-! ## Reference functions used in the statements -/

/-- XOR of `bs` with the bytes of the stream `ks` from position `pos` on. -/
def xorAt (ks : Nat → UInt8) : Nat → Bytes → Bytes
  | _, [] => []
  | pos, b :: bs => (b ^^^ ks pos) :: xorAt ks (pos + 1) bs

/-- XOR of successive payloads with successive stretches of the stream `ks`. -/
def xorWrites (ks : Nat → UInt8) : Nat → List Bytes → List Bytes
  | _, [] => []
  | pos, p :: ps => xorAt ks pos p :: xorWrites ks (pos + p.length) ps

/-- The bytes a relay will get from an `io.Reader` if it reads it to the end. -/
def Inp.stream : Inp → Bytes
  | .plain r => r.pending.flatten
  | .xor r => xorAt r.entopy.stream r.entopy.pos r.inp.pending.flatten

/-- Whether an `io.Reader` is an `XorReader`. -/
def Inp.isXor : Inp → Bool
  | .plain _ => false
  | .xor _ => true

/-- What a successful `Encrypt` returns for `plain` when the random source supplies `nonce`. -/
def crypted (g : AEAD) (nonce plain : Bytes) : Bytes :=
  nonce ++ g.sealed nonce plain []

/-- One message on the wire: big-endian length, then the ciphertext. -/
def frame (g : AEAD) (nonce plain : Bytes) : Bytes :=
  PutUint32 (crypted g nonce plain).length ++ crypted g nonce plain

/-- The payloads that reach the connection when `ps` are written to `out` one after another. -/
def Out.encode : Out → List Bytes → List Bytes
  | .plain _, ps => ps
  | .xor w, ps => xorWrites w.entopy.stream w.entopy.pos ps

/-- The payloads that reach the connection when a relay configured with `seed` writes `ps`:
unchanged without a seed, XORed with successive stretches of the seed's stream with one. -/
def onWire (source : Int → Nat → UInt8) : Option Int → List Bytes → List Bytes
  | none, ps => ps
  | some s, ps => xorWrites (source s) 0 ps

/-- Successive calls of `XorWriter.Write`, one for each payload. -/
def writeAll : XorWriter → List Bytes → XorWriter
  | w, [] => w
  | w, p :: ps => writeAll (w.Write p).2.2 ps

/-- Successive calls of `XorReader.Read` with buffers of the given lengths: what each call
returned, and the reader afterwards. -/
def readAll : XorReader → List Nat → List (Bytes × Option Error) × XorReader
  | r, [] => ([], r)
  | r, n :: ns =>
    let res := r.Read n
    let rest := readAll res.2.2 ns
    ((res.1, res.2.1) :: rest.1, rest.2)

/-- Number of iterations a relay loop completes when `steps` of them meet no read or
encryption error and the destination lets `budget` writes succeed (`none`: all of them): the
loop runs up to the first operation that reports an error. -/
def completed (steps : Nat) (budget : Option Nat) : Nat :=
  match budget with
  | none => steps
  | some m => min steps m

/-! ## Bytes, XOR and the keystream -/

theorem xor_xor_cancel (a k : UInt8) : (a ^^^ k) ^^^ k = a := by
  cases a with
  | mk a =>
    cases k with
    | mk k =>
      apply congrArg UInt8.mk
      show (a ^^^ k) ^^^ k = a
      rw [BitVec.xor_assoc, BitVec.xor_self, BitVec.xor_zero]

theorem xorAt_length (ks : Nat → UInt8) (pos : Nat) (bs : Bytes) :
    (xorAt ks pos bs).length = bs.length := by
  induction bs generalizing pos with
  | nil => rfl
  | cons b bs ih => simp [xorAt, ih]

theorem xorAt_append (ks : Nat → UInt8) (pos : Nat) (as bs : Bytes) :
    xorAt ks pos (as ++ bs) = xorAt ks pos as ++ xorAt ks (pos + as.length) bs := by
  induction as generalizing pos with
  | nil => simp [xorAt]
  | cons a as ih =>
    show (a ^^^ ks pos) :: xorAt ks (pos + 1) (as ++ bs) =
      (a ^^^ ks pos) :: (xorAt ks (pos + 1) as ++ xorAt ks (pos + (as.length + 1)) bs)
    rw [ih, show pos + 1 + as.length = pos + (as.length + 1) by omega]

theorem xorAt_xorAt (ks : Nat → UInt8) (pos : Nat) (bs : Bytes) :
    xorAt ks pos (xorAt ks pos bs) = bs := by
  induction bs generalizing pos with
  | nil => rfl
  | cons b bs ih => simp [xorAt, ih, xor_xor_cancel]

theorem xorWrites_flatten (ks : Nat → UInt8) (pos : Nat) (ps : List Bytes) :
    (xorWrites ks pos ps).flatten = xorAt ks pos ps.flatten := by
  induction ps generalizing pos with
  | nil => rfl
  | cons p ps ih => simp [xorWrites, xorAt_append, ih]

theorem Rand_Read_length (g : Rand) (n : Nat) : (g.Read n).1.length = n := by
  simp [Rand.Read]

theorem zipWith_keystream (ks : Nat → UInt8) (pos : Nat) (p tail : Bytes) :
    List.zipWith (fun x k => x ^^^ k) p
      ((List.range p.length).map (fun i => ks (pos + i)) ++ tail) = xorAt ks pos p := by
  induction p generalizing pos with
  | nil => simp [xorAt]
  | cons b bs ih =>
    simp only [List.length_cons, List.range_succ_eq_map, List.map_cons, List.map_map,
      List.cons_append, List.zipWith_cons_cons, xorAt, Nat.add_zero]
    congr 1
    have h : ((fun i => ks (pos + i)) ∘ Nat.succ) = fun i => ks (pos + 1 + i) := by
      funext i
      simp only [Function.comp, Nat.succ_eq_add_one]
      congr 1
      omega
    rw [h]
    exact ih (pos + 1)

/-! ## Single reads and writes -/

theorem Writer_Write_ok (written : List Bytes) (p : Bytes) :
    Writer.Write ⟨written, none⟩ p = (p.length, none, ⟨written ++ [p], none⟩) := rfl

theorem XorWriter_Write_ok (w : XorWriter) (p : Bytes) (h : w.out.budget = none) :
    (w.Write p).2.1 = none ∧
    (w.Write p).2.2.out = ⟨w.out.written ++ [xorAt w.entopy.stream w.entopy.pos p], none⟩ ∧
    (w.Write p).2.2.entopy = ⟨w.entopy.stream, w.entopy.pos + p.length⟩ := by
  obtain ⟨e, ⟨written, budget⟩, buf⟩ := w
  simp only at h
  subst h
  simp [XorWriter.Write, Rand.Read, Writer.Write, zipWith_keystream]

theorem Reader_Read_nil (n : Nat) : Reader.Read ⟨[]⟩ n = ([], some Error.EOF, ⟨[]⟩) := rfl

theorem Reader_Read_fits (seg : Bytes) (rest : List Bytes) (n : Nat) (h : seg.length ≤ n) :
    Reader.Read ⟨seg :: rest⟩ n = (seg, none, ⟨rest⟩) := by
  simp [Reader.Read, h]

theorem Reader_Read_split (seg : Bytes) (rest : List Bytes) (n : Nat) (h : n < seg.length) :
    Reader.Read ⟨seg :: rest⟩ n = (seg.take n, none, ⟨seg.drop n :: rest⟩) := by
  simp [Reader.Read, Nat.not_le.mpr h]

theorem XorReader_Read_eof (r : XorReader) (n : Nat) (h : r.inp.pending = []) :
    (r.Read n).1 = [] ∧ (r.Read n).2.1 = some Error.EOF ∧ (r.Read n).2.2.inp = ⟨[]⟩ ∧
    (r.Read n).2.2.entopy = r.entopy := by
  obtain ⟨e, ⟨pending⟩, b1, b2⟩ := r
  simp only at h
  subst h
  simp [XorReader.Read, Reader.Read]

theorem XorReader_Read_fits (r : XorReader) (seg : Bytes) (rest : List Bytes) (n : Nat)
    (h : r.inp.pending = seg :: rest) (hn : seg.length ≤ n) :
    (r.Read n).1 = xorAt r.entopy.stream r.entopy.pos seg ∧ (r.Read n).2.1 = none ∧
    (r.Read n).2.2.inp = ⟨rest⟩ ∧
    (r.Read n).2.2.entopy = ⟨r.entopy.stream, r.entopy.pos + seg.length⟩ := by
  obtain ⟨e, ⟨pending⟩, b1, b2⟩ := r
  simp only at h
  subst h
  simp [XorReader.Read, Reader.Read, hn, Rand.Read, zipWith_keystream]

theorem XorReader_Read_split (r : XorReader) (seg : Bytes) (rest : List Bytes) (n : Nat)
    (h : r.inp.pending = seg :: rest) (hn : n < seg.length) :
    (r.Read n).1 = xorAt r.entopy.stream r.entopy.pos (seg.take n) ∧ (r.Read n).2.1 = none ∧
    (r.Read n).2.2.inp = ⟨seg.drop n :: rest⟩ ∧
    (r.Read n).2.2.entopy = ⟨r.entopy.stream, r.entopy.pos + n⟩ := by
  obtain ⟨e, ⟨pending⟩, b1, b2⟩ := r
  simp only at h
  subst h
  have hlen : (List.take n seg).length = n := by simp; omega
  have hz := zipWith_keystream e.stream e.pos (List.take n seg)
  rw [hlen] at hz
  simp [XorReader.Read, Reader.Read, Nat.not_le.mpr hn, Rand.Read, hlen, hz, Nat.le_of_lt hn]

/-! ## Reads through an `io.Reader` -/

theorem Inp_stream_of_plain (inp : Inp) (h : inp.isXor = false) :
    inp.stream = inp.base.pending.flatten := by
  cases inp with
  | plain r => rfl
  | xor r => simp [Inp.isXor] at h

theorem Inp_stream_nil (inp : Inp) (h : inp.base.pending = []) : inp.stream = [] := by
  cases inp with
  | plain r => simp only [Inp.base] at h; simp [Inp.stream, h]
  | xor r => simp only [Inp.base] at h; simp [Inp.stream, h, xorAt]

theorem Inp_Read_nil (inp : Inp) (n : Nat) (h : inp.base.pending = []) :
    (inp.Read n).1 = [] ∧ (inp.Read n).2.1 = some Error.EOF ∧
    (inp.Read n).2.2.base.pending = [] ∧ (inp.Read n).2.2.isXor = inp.isXor := by
  cases inp with
  | plain r =>
    obtain ⟨pending⟩ := r
    simp only [Inp.base] at h
    subst h
    simp [Inp.Read, Reader.Read, Inp.base, Inp.isXor]
  | xor r =>
    simp only [Inp.base] at h
    have := XorReader_Read_eof r n h
    simp [Inp.Read, Inp.base, Inp.isXor, this]

theorem Inp_Read_cons (inp : Inp) (seg : Bytes) (rest : List Bytes) (n : Nat)
    (h : inp.base.pending = seg :: rest) :
    (inp.Read n).2.1 = none ∧ inp.stream = (inp.Read n).1 ++ (inp.Read n).2.2.stream ∧
    (inp.Read n).2.2.isXor = inp.isXor ∧
    ((seg.length ≤ n ∧ (inp.Read n).1.length = seg.length ∧
        (inp.Read n).2.2.base.pending = rest) ∨
      (n < seg.length ∧ (inp.Read n).1.length = n ∧
        (inp.Read n).2.2.base.pending = seg.drop n :: rest)) := by
  cases inp with
  | plain r =>
    obtain ⟨pending⟩ := r
    simp only [Inp.base] at h
    subst h
    by_cases hn : seg.length ≤ n
    · simp [Inp.Read, Reader_Read_fits seg rest n hn, Inp.stream, Inp.base, Inp.isXor, hn]
    · have hn2 : n < seg.length := Nat.lt_of_not_le hn
      have h3 : List.take n seg ++ (List.drop n seg ++ rest.flatten) = seg ++ rest.flatten := by
        rw [← List.append_assoc, List.take_append_drop]
      simp [Inp.Read, Reader_Read_split seg rest n hn2, Inp.stream, Inp.base, Inp.isXor, hn2,
        Nat.le_of_lt hn2, h3]
  | xor r =>
    simp only [Inp.base] at h
    by_cases hn : seg.length ≤ n
    · obtain ⟨h1, h2, h3, h4⟩ := XorReader_Read_fits r seg rest n h hn
      simp [Inp.Read, Inp.stream, Inp.base, Inp.isXor, h1, h2, h3, h4, h, hn, xorAt_append,
        xorAt_length]
    · have hn2 : n < seg.length := Nat.lt_of_not_le hn
      obtain ⟨h1, h2, h3, h4⟩ := XorReader_Read_split r seg rest n h hn2
      have h5 : xorAt r.entopy.stream r.entopy.pos (seg ++ rest.flatten) =
          xorAt r.entopy.stream r.entopy.pos (List.take n seg ++ (List.drop n seg ++ rest.flatten)) := by
        rw [← List.append_assoc, List.take_append_drop]
      have h6 : (List.take n seg).length = n := by simp; omega
      simp [Inp.Read, Inp.stream, Inp.base, Inp.isXor, h1, h2, h3, h4, h, hn2, xorAt_length,
        Nat.le_of_lt hn2, h5, xorAt_append, h6]

theorem append_split (X Y d S : Bytes) (h : X ++ Y = d ++ S) (hd : d.length ≤ X.length) :
    X = d ++ X.drop d.length ∧ S = X.drop d.length ++ Y := by
  have h1 : d = X.take d.length := by
    have := congrArg (List.take d.length) h
    rw [List.take_left, List.take_append_of_le_length hd] at this
    exact this.symm
  have h2 : S = X.drop d.length ++ Y := by
    have := congrArg (List.drop d.length) h
    rw [List.drop_left, List.drop_append_of_le_length hd] at this
    exact this.symm
  refine ⟨?_, h2⟩
  conv_lhs => rw [← List.take_append_drop d.length X]
  rw [← h1]

theorem readFullLoop_stream (k : Nat) : ∀ (inp : Inp) (len : Nat) (acc X Y : Bytes),
    inp.stream = X ++ Y → acc.length + X.length = len →
    (X = [] ∨ inp.base.pending.length < k) →
    (readFullLoop k inp len acc).1 = acc ++ X ∧ (readFullLoop k inp len acc).2.1 = none ∧
    (readFullLoop k inp len acc).2.2.stream = Y ∧
    (readFullLoop k inp len acc).2.2.isXor = inp.isXor := by
  induction k with
  | zero =>
    intro inp len acc X Y hs hl hk
    have hX : X = [] := by
      rcases hk with h | h
      · exact h
      · omega
    subst hX
    simp [readFullLoop, hs] at *
  | succ k ih =>
    intro inp len acc X Y hs hl hk
    by_cases hlt : acc.length < len
    · have hXne : X ≠ [] := by
        intro h
        subst h
        simp at hl
        omega
      have hk2 : inp.base.pending.length < k + 1 := by
        rcases hk with h | h
        · exact absurd h hXne
        · exact h
      cases hp : inp.base.pending with
      | nil =>
        have := Inp_stream_nil inp hp
        rw [this] at hs
        have hX : X = [] := by
          cases X with
          | nil => rfl
          | cons x xs => simp at hs
        exact absurd hX hXne
      | cons seg rest =>
        obtain ⟨h1, h2, h3, h4⟩ := Inp_Read_cons inp seg rest (len - acc.length) hp
        rcases hr : inp.Read (len - acc.length) with ⟨d, e, inp2⟩
        rw [hr] at h1 h2 h3 h4
        simp only at h1 h2 h3 h4
        subst h1
        have hdlen : d.length ≤ X.length := by
          rcases h4 with ⟨_, h, _⟩ | ⟨_, h, _⟩ <;> omega
        rw [hs] at h2
        obtain ⟨hX, hS⟩ := append_split X Y d inp2.stream h2 hdlen
        have hX2 : (X.drop d.length).length = X.length - d.length := by simp
        have hcond : X.drop d.length = [] ∨ inp2.base.pending.length < k := by
          rcases h4 with ⟨_, _, h⟩ | ⟨_, h, _⟩
          · right
            rw [h]
            rw [hp] at hk2
            simp at hk2
            omega
          · left
            apply List.eq_nil_of_length_eq_zero
            rw [hX2]
            omega
        have := ih inp2 len (acc ++ d) (X.drop d.length) Y hS (by simp; omega) hcond
        simp only [readFullLoop, hlt, if_true, hr]
        rw [List.append_assoc, ← hX, h3] at this
        exact this
    · have hX : X = [] := by
        apply List.eq_nil_of_length_eq_zero
        omega
      subst hX
      simp [readFullLoop, hlt] at *
      exact hs

theorem ReadFull_stream (inp : Inp) (len : Nat) (X Y : Bytes) (hs : inp.stream = X ++ Y)
    (hl : X.length = len) :
    (ReadFull inp len).1 = X ∧ (ReadFull inp len).2.1 = none ∧
    (ReadFull inp len).2.2.stream = Y ∧ (ReadFull inp len).2.2.isXor = inp.isXor := by
  obtain ⟨h1, h2, h3, h4⟩ := readFullLoop_stream (inp.base.pending.length + 1) inp len [] X Y hs
    (by simpa using hl) (Or.inr (Nat.lt_succ_self _))
  rcases hr : readFullLoop (inp.base.pending.length + 1) inp len [] with ⟨d, e, inp2⟩
  rw [hr] at h1 h2 h3 h4
  simp only [List.nil_append] at h1 h2 h3 h4
  subst h1 h2
  simp [ReadFull, hr, hl, h3, h4]

theorem readFullLoop_short (k : Nat) : ∀ (inp : Inp) (len : Nat) (acc : Bytes),
    acc.length + inp.stream.length < len → inp.base.pending.length < k →
    (readFullLoop k inp len acc).2.1 ≠ none ∧ (readFullLoop k inp len acc).1.length < len ∧
    (readFullLoop k inp len acc).2.2.base.pending = [] := by
  induction k with
  | zero => intro inp len acc _ hk; omega
  | succ k ih =>
    intro inp len acc hs hk
    have hlt : acc.length < len := by omega
    cases hp : inp.base.pending with
    | nil =>
      obtain ⟨h1, h2, h3, _⟩ := Inp_Read_nil inp (len - acc.length) hp
      rcases hr : inp.Read (len - acc.length) with ⟨d, e, inp2⟩
      rw [hr] at h1 h2 h3
      simp only at h1 h2 h3
      subst h1 h2
      simp [readFullLoop, hlt, hr, h3]
    | cons seg rest =>
      obtain ⟨h1, h2, _, h4⟩ := Inp_Read_cons inp seg rest (len - acc.length) hp
      rcases hr : inp.Read (len - acc.length) with ⟨d, e, inp2⟩
      rw [hr] at h1 h2 h4
      simp only at h1 h2 h4
      subst h1
      have hlen : inp.stream.length = d.length + inp2.stream.length := by
        rw [h2, List.length_append]
      have hpend : inp2.base.pending.length < k := by
        rcases h4 with ⟨_, _, h⟩ | ⟨_, h, _⟩
        · rw [h]
          rw [hp] at hk
          simp at hk
          omega
        · omega
      have := ih inp2 len (acc ++ d) (by simp; omega) hpend
      simp only [readFullLoop, hlt, if_true, hr]
      exact this

theorem ReadFull_short (inp : Inp) (len : Nat) (hs : inp.stream.length < len) :
    (ReadFull inp len).2.1 ≠ none ∧ (ReadFull inp len).2.2.base.pending = [] := by
  obtain ⟨h1, h2, h3⟩ := readFullLoop_short (inp.base.pending.length + 1) inp len []
    (by simpa using hs) (Nat.lt_succ_self _)
  rcases hr : readFullLoop (inp.base.pending.length + 1) inp len [] with ⟨d, e, inp2⟩
  rw [hr] at h1 h2 h3
  simp only at h1 h2 h3
  simp only [ReadFull, hr, Nat.not_le.mpr h2, if_false]
  split
  · exact ⟨by simp, h3⟩
  · exact ⟨h1, h3⟩

theorem readFullLoop_none (k : Nat) : ∀ (inp : Inp) (len : Nat) (acc : Bytes),
    acc.length ≤ len → (acc.length = len ∨ inp.base.pending.length < k) →
    (readFullLoop k inp len acc).2.1 = none → (readFullLoop k inp len acc).1.length = len := by
  induction k with
  | zero =>
    intro inp len acc _ hk _
    rcases hk with h | h
    · simpa [readFullLoop] using h
    · omega
  | succ k ih =>
    intro inp len acc hle hk
    by_cases hlt : acc.length < len
    · have hk2 : inp.base.pending.length < k + 1 := by
        rcases hk with h | h
        · omega
        · exact h
      cases hp : inp.base.pending with
      | nil =>
        obtain ⟨h1, h2, _, _⟩ := Inp_Read_nil inp (len - acc.length) hp
        rcases hr : inp.Read (len - acc.length) with ⟨d, e, inp2⟩
        rw [hr] at h1 h2
        simp only at h1 h2
        subst h1 h2
        simp [readFullLoop, hlt, hr]
      | cons seg rest =>
        obtain ⟨h1, _, _, h4⟩ := Inp_Read_cons inp seg rest (len - acc.length) hp
        rcases hr : inp.Read (len - acc.length) with ⟨d, e, inp2⟩
        rw [hr] at h1 h4
        simp only at h1 h4
        subst h1
        have hcond : (acc ++ d).length = len ∨ inp2.base.pending.length < k := by
          rcases h4 with ⟨_, _, h⟩ | ⟨_, h, _⟩
          · right
            rw [h]
            rw [hp] at hk2
            simp at hk2
            omega
          · left
            simp
            omega
        have hle2 : (acc ++ d).length ≤ len := by
          rcases h4 with ⟨_, h, _⟩ | ⟨_, h, _⟩ <;> simp <;> omega
        have := ih inp2 len (acc ++ d) hle2 hcond
        simp only [readFullLoop, hlt, if_true, hr]
        exact this
    · intro _
      simp only [readFullLoop, hlt, if_false]
      omega

theorem Inp_Read_length_le (inp : Inp) (n : Nat) : (inp.Read n).1.length ≤ n := by
  cases hp : inp.base.pending with
  | nil =>
    obtain ⟨h1, _, _, _⟩ := Inp_Read_nil inp n hp
    simp [h1]
  | cons seg rest =>
    obtain ⟨_, _, _, h4⟩ := Inp_Read_cons inp seg rest n hp
    rcases h4 with ⟨_, h, _⟩ | ⟨_, h, _⟩ <;> omega

theorem readFullLoop_length_le (k : Nat) : ∀ (inp : Inp) (len : Nat) (acc : Bytes),
    acc.length ≤ len → (readFullLoop k inp len acc).1.length ≤ len := by
  induction k with
  | zero => intro inp len acc h; simpa [readFullLoop] using h
  | succ k ih =>
    intro inp len acc hle
    by_cases hlt : acc.length < len
    · have hd := Inp_Read_length_le inp (len - acc.length)
      rcases hr : inp.Read (len - acc.length) with ⟨d, e, inp2⟩
      rw [hr] at hd
      simp only at hd
      have hle2 : (acc ++ d).length ≤ len := by simp; omega
      cases e with
      | none =>
        simp only [readFullLoop, hlt, if_true, hr]
        exact ih inp2 len (acc ++ d) hle2
      | some e =>
        simp only [readFullLoop, hlt, if_true, hr]
        exact hle2
    · simp only [readFullLoop, hlt, if_false]
      exact hle

theorem ReadFull_ok_length (inp : Inp) (len : Nat) (h : (ReadFull inp len).2.1 = none) :
    (ReadFull inp len).1.length = len := by
  have h1 := readFullLoop_none (inp.base.pending.length + 1) inp len [] (Nat.zero_le _)
    (Or.inr (Nat.lt_succ_self _))
  rcases hr : readFullLoop (inp.base.pending.length + 1) inp len [] with ⟨d, e, inp2⟩
  rw [hr] at h1
  simp only at h1
  have h0 := readFullLoop_length_le (inp.base.pending.length + 1) inp len [] (Nat.zero_le _)
  rw [hr] at h0
  simp only at h0
  simp only [ReadFull, hr] at h ⊢
  by_cases hd : len ≤ d.length
  · simp only [hd, if_true] at h ⊢
    omega
  · simp only [hd, if_false] at h ⊢
    split at h
    · simp at h
    · exact absurd (h1 h) (by omega)

/-! ## AESCrypt -/

theorem toyAEAD_OpenInvertsSeal : toyAEAD.OpenInvertsSeal := by
  intro nonce plaintext ad _
  simp [toyAEAD, gcmTagSize]

theorem toyAEAD_SealLength : toyAEAD.SealLength := by
  intro nonce plaintext ad
  simp [toyAEAD]

theorem newAESCrypt_inj (lib : Crypto) (key : Bytes) (c1 c2 : AESCrypt)
    (h1 : newAESCrypt lib key = .ok c1) (h2 : newAESCrypt lib key = .ok c2) : c1 = c2 := by
  rw [h1] at h2
  exact Except.ok.inj h2

theorem Encrypt_ok (c : AESCrypt) (randReader : Reader) (plain nonce more : Bytes)
    (hr : randReader.pending.flatten = nonce ++ more) (hn : nonce.length = c.gcm.NonceSize) :
    (c.Encrypt randReader plain).1 = crypted c.gcm nonce plain ∧
    (c.Encrypt randReader plain).2.1 = none ∧
    (c.Encrypt randReader plain).2.2.pending.flatten = more := by
  obtain ⟨h1, h2, h3, h4⟩ := ReadFull_stream (.plain randReader) c.gcm.NonceSize nonce more hr hn
  rcases hrf : ReadFull (.plain randReader) c.gcm.NonceSize with ⟨d, e, inp2⟩
  rw [hrf] at h1 h2 h3 h4
  simp only at h1 h2 h3 h4
  subst h1 h2
  rw [Inp_stream_of_plain inp2 h4] at h3
  simp [AESCrypt.Encrypt, hrf, crypted, AEAD.Seal, h3]

theorem Encrypt_shape (c : AESCrypt) (randReader : Reader) (plain : Bytes)
    (hok : (c.Encrypt randReader plain).2.1 = none) :
    ∃ nonce, nonce.length = c.gcm.NonceSize ∧
      (c.Encrypt randReader plain).1 = crypted c.gcm nonce plain := by
  have hlen := ReadFull_ok_length (.plain randReader) c.gcm.NonceSize
  rcases hrf : ReadFull (.plain randReader) c.gcm.NonceSize with ⟨d, e, inp2⟩
  rw [hrf] at hlen
  simp only [AESCrypt.Encrypt, hrf] at hok ⊢
  cases e with
  | some e => simp at hok
  | none => exact ⟨d, hlen rfl, rfl⟩

theorem Decrypt_crypted (c : AESCrypt) (h : c.gcm.OpenInvertsSeal) (nonce plain : Bytes)
    (hn : nonce.length = c.gcm.NonceSize) :
    c.Decrypt (crypted c.gcm nonce plain) = .ok (plain, none) := by
  have h1 : ¬ (crypted c.gcm nonce plain).length < c.gcm.NonceSize := by
    simp [crypted, hn]
  have h2 : c.gcm.NonceSize ≤ (crypted c.gcm nonce plain).length := Nat.le_of_not_lt h1
  simp only [AESCrypt.Decrypt, h1, if_false, sliceTo, sliceFrom, h2, if_true]
  simp only [crypted, ← hn, List.take_left, List.drop_left]
  rw [h nonce plain [] hn]

/-- C1. For every key accepted by the cipher and every plaintext (the empty one too),
`Decrypt` on an instance built from that key, applied to the bytes a successful `Encrypt` on
an instance built from the same key returned, gives back the plaintext with no error,
whatever nonce the random source supplied; that `Open` inverts `Seal` is a hypothesis. -/
theorem Decrypt_Encrypt (lib : Crypto) (key : Bytes) (enc dec : AESCrypt)
    (henc : newAESCrypt lib key = .ok enc) (hdec : newAESCrypt lib key = .ok dec)
    (haead : enc.gcm.OpenInvertsSeal) (randReader : Reader) (plain : Bytes)
    (hok : (enc.Encrypt randReader plain).2.1 = none) :
    dec.Decrypt (enc.Encrypt randReader plain).1 = .ok (plain, none) := by
  have hc := newAESCrypt_inj lib key enc dec henc hdec
  subst hc
  obtain ⟨nonce, hn, hct⟩ := Encrypt_shape enc randReader plain hok
  rw [hct]
  exact Decrypt_crypted enc haead nonce plain hn

theorem Decrypt_Encrypt_witness :
    newAESCrypt toyCrypto (List.replicate 16 7) = .ok ⟨toyAEAD⟩ ∧
    ((⟨toyAEAD⟩ : AESCrypt).Encrypt ⟨[[1, 2, 3, 4, 5], [6, 7, 8, 9, 10, 11, 12, 13]]⟩
      [104, 105]).2.1 = none ∧
    (⟨toyAEAD⟩ : AESCrypt).Decrypt ((⟨toyAEAD⟩ : AESCrypt).Encrypt
      ⟨[[1, 2, 3, 4, 5], [6, 7, 8, 9, 10, 11, 12, 13]]⟩ [104, 105]).1 = .ok ([104, 105], none) :=
  ⟨rfl, by decide, Decrypt_Encrypt toyCrypto (List.replicate 16 7) ⟨toyAEAD⟩ ⟨toyAEAD⟩ rfl rfl
    toyAEAD_OpenInvertsSeal ⟨[[1, 2, 3, 4, 5], [6, 7, 8, 9, 10, 11, 12, 13]]⟩ [104, 105]
    (by decide)⟩

/-- C5. For every byte sequence shorter than the nonce size (the empty one too), `Decrypt`
returns the empty result and the error "Too short crypted text"; it does not panic on a
slice bound, and the result is the same whatever the AEAD `Open` would do. -/
theorem Decrypt_too_short (c : AESCrypt) (bs : Bytes) (h : bs.length < c.gcm.NonceSize) :
    c.Decrypt bs = .ok ([], some (Error.New "Too short crypted text")) := by
  simp [AESCrypt.Decrypt, h]

theorem Decrypt_too_short_witness :
    ([1, 2, 3] : Bytes).length < (⟨toyAEAD⟩ : AESCrypt).gcm.NonceSize ∧
    (⟨toyAEAD⟩ : AESCrypt).Decrypt [1, 2, 3] =
      .ok ([], some (Error.New "Too short crypted text")) :=
  ⟨by decide, Decrypt_too_short ⟨toyAEAD⟩ [1, 2, 3] (by decide)⟩

/-! ## Length header -/

theorem UInt8_ofNat_congr (a b : Nat) (h : a % 256 = b % 256) : UInt8.ofNat a = UInt8.ofNat b := by
  apply congrArg UInt8.mk
  apply BitVec.eq_of_toNat_eq
  simpa [BitVec.toNat_ofNat] using h

theorem PutUint32_length (v : Nat) : (PutUint32 v).length = 4 := rfl

theorem PutUint32_mod (v : Nat) : PutUint32 (v % 2 ^ 32) = PutUint32 v := by
  simp only [PutUint32]
  rw [UInt8_ofNat_congr (v % 2 ^ 32 / 2 ^ 24) (v / 2 ^ 24) (by omega),
    UInt8_ofNat_congr (v % 2 ^ 32 / 2 ^ 16) (v / 2 ^ 16) (by omega),
    UInt8_ofNat_congr (v % 2 ^ 32 / 2 ^ 8) (v / 2 ^ 8) (by omega),
    UInt8_ofNat_congr (v % 2 ^ 32) v (by omega)]

theorem Uint32_PutUint32 (v : Nat) (h : v < 2 ^ 32) : Uint32 (PutUint32 v) = v := by
  simp [Uint32, PutUint32, UInt8.toNat, UInt8.ofNat]
  omega

theorem crypted_length (g : AEAD) (h : g.SealLength) (nonce plain : Bytes) :
    (crypted g nonce plain).length = nonce.length + plain.length + g.Overhead := by
  simp [crypted, h nonce plain []]
  omega

theorem frame_header (g : AEAD) (nonce plain : Bytes)
    (h : (crypted g nonce plain).length < 2 ^ 32) :
    Uint32 ((frame g nonce plain).take 4) = ((frame g nonce plain).drop 4).length := by
  have h4 := PutUint32_length (crypted g nonce plain).length
  simp only [frame, List.take_left' h4, List.drop_left' h4]
  exact Uint32_PutUint32 _ h

/-! ## Writes through an `io.Writer` -/

theorem Reader_eta (r : Reader) (h : r.pending = []) : r = ⟨[]⟩ := by
  cases r
  simp at h
  simp [h]

theorem Writer_eta (w : Writer) (h : w.budget = none) : w = ⟨w.written, none⟩ := by
  cases w
  simp at h
  simp [h]

theorem Out_encode_nil (out : Out) : out.encode [] = [] := by
  cases out <;> rfl

theorem Out_Write_ok (out : Out) (p : Bytes) (h : out.base.budget = none) :
    (out.Write p).2.1 = none ∧
    (out.Write p).2.2.base = ⟨out.base.written ++ out.encode [p], none⟩ ∧
    ∀ ps, out.encode (p :: ps) = out.encode [p] ++ (out.Write p).2.2.encode ps := by
  cases out with
  | plain w =>
    obtain ⟨written, budget⟩ := w
    simp only [Out.base] at h
    subst h
    simp [Out.Write, Writer.Write, Out.base, Out.encode]
  | xor w =>
    simp only [Out.base] at h
    obtain ⟨h1, h2, h3⟩ := XorWriter_Write_ok w p h
    simp [Out.Write, Out.base, Out.encode, h1, h2, h3, xorWrites]

/-! ## The relay loops on whole runs -/

theorem shiftLoop_run (bufSize : Nat) : ∀ (chunks : List Bytes) (k : Nat) (out : Out),
    (∀ ch ∈ chunks, ch.length ≤ bufSize) → out.base.budget = none → chunks.length < k →
    ∃ out2, shiftLoop k ⟨chunks⟩ out bufSize = some (⟨[]⟩, out2) ∧
      out2.base = ⟨out.base.written ++ out.encode chunks, none⟩ := by
  intro chunks
  induction chunks with
  | nil =>
    intro k out _ hb hk
    obtain ⟨k, rfl⟩ : ∃ j, k = j + 1 := ⟨k - 1, by omega⟩
    refine ⟨out, by simp [shiftLoop, Reader.Read], ?_⟩
    rw [Out_encode_nil, List.append_nil]
    exact Writer_eta _ hb
  | cons ch chunks ih =>
    intro k out hfit hb hk
    obtain ⟨k, rfl⟩ : ∃ j, k = j + 1 := ⟨k - 1, by omega⟩
    have hch : ch.length ≤ bufSize := hfit ch (List.mem_cons_self _ _)
    obtain ⟨h1, h2, h3⟩ := Out_Write_ok out ch hb
    rcases hw : out.Write ch with ⟨n, e, out1⟩
    rw [hw] at h1 h2 h3
    simp only at h1 h2 h3
    subst h1
    obtain ⟨out2, hrun, hbase⟩ := ih k out1 (fun c hc => hfit c (List.mem_cons_of_mem _ hc))
      (by rw [h2]) (by simp at hk; omega)
    refine ⟨out2, ?_, ?_⟩
    · simp only [shiftLoop, Reader_Read_fits ch chunks bufSize hch, hw]
      exact hrun
    · rw [hbase, h2, h3 chunks, List.append_assoc]

theorem encrLoop_run (c : AESCrypt) (bufSize : Nat) :
    ∀ (chunks nonces : List Bytes) (k : Nat) (out : Out) (randReader : Reader) (more : Bytes),
    (∀ ch ∈ chunks, ch.length ≤ bufSize) → (∀ n ∈ nonces, n.length = c.gcm.NonceSize) →
    chunks.length = nonces.length → randReader.pending.flatten = nonces.flatten ++ more →
    out.base.budget = none → chunks.length < k →
    ∃ out2, encrLoop k ⟨chunks⟩ out bufSize c randReader = some (⟨[]⟩, out2) ∧
      out2.base =
        ⟨out.base.written ++ out.encode (List.zipWith (frame c.gcm) nonces chunks), none⟩ := by
  intro chunks
  induction chunks with
  | nil =>
    intro nonces k out randReader more _ _ _ _ hb hk
    obtain ⟨k, rfl⟩ : ∃ j, k = j + 1 := ⟨k - 1, by omega⟩
    refine ⟨out, by simp [encrLoop, Reader.Read], ?_⟩
    rw [List.zipWith_nil_right, Out_encode_nil, List.append_nil]
    exact Writer_eta _ hb
  | cons ch chunks ih =>
    intro nonces k out randReader more hfit hn hcount hrng hb hk
    obtain ⟨k, rfl⟩ : ∃ j, k = j + 1 := ⟨k - 1, by omega⟩
    cases nonces with
    | nil => simp at hcount
    | cons nonce nonces =>
      have hch : ch.length ≤ bufSize := hfit ch (List.mem_cons_self _ _)
      have hnonce : nonce.length = c.gcm.NonceSize := hn nonce (List.mem_cons_self _ _)
      obtain ⟨e1, e2, e3⟩ := Encrypt_ok c randReader ch nonce (nonces.flatten ++ more)
        (by rw [hrng, List.flatten_cons, List.append_assoc]) hnonce
      rcases he : c.Encrypt randReader ch with ⟨ct, e, rng1⟩
      rw [he] at e1 e2 e3
      simp only at e1 e2 e3
      subst e1 e2
      have hframe : PutUint32 ((crypted c.gcm nonce ch).length % 2 ^ 32) ++ crypted c.gcm nonce ch =
          frame c.gcm nonce ch := by
        rw [PutUint32_mod, frame]
      obtain ⟨h1, h2, h3⟩ := Out_Write_ok out (frame c.gcm nonce ch) hb
      rcases hw : out.Write (frame c.gcm nonce ch) with ⟨n, e, out1⟩
      rw [hw] at h1 h2 h3
      simp only at h1 h2 h3
      subst h1
      obtain ⟨out2, hrun, hbase⟩ := ih nonces k out1 rng1 more
        (fun x hx => hfit x (List.mem_cons_of_mem _ hx))
        (fun x hx => hn x (List.mem_cons_of_mem _ hx))
        (by simpa using hcount) e3 (by rw [h2]) (by simp at hk; omega)
      refine ⟨out2, ?_, ?_⟩
      · simp only [encrLoop, Reader_Read_fits ch chunks bufSize hch, he, hframe, hw]
        exact hrun
      · rw [hbase, h2, List.zipWith_cons_cons, h3 (List.zipWith (frame c.gcm) nonces chunks),
          List.append_assoc]

theorem decrLoop_run (c : AESCrypt) (hopen : c.gcm.OpenInvertsSeal) (hlen : c.gcm.SealLength)
    (bufLen : Nat) (hbuf : bufLen < 2 ^ 32) :
    ∀ (chunks nonces : List Bytes) (k : Nat) (inp : Inp) (written : List Bytes),
    (∀ ch ∈ chunks, c.gcm.NonceSize + ch.length + c.gcm.Overhead ≤ bufLen) →
    (∀ n ∈ nonces, n.length = c.gcm.NonceSize) → chunks.length = nonces.length →
    inp.stream = (List.zipWith (frame c.gcm) nonces chunks).flatten → chunks.length < k →
    ∃ inp2, inp2.base.pending = [] ∧ decrLoop k inp ⟨written, none⟩ bufLen c =
      some (inp2, ⟨written ++ chunks, none⟩, .returned) := by
  intro chunks
  induction chunks with
  | nil =>
    intro nonces k inp written _ _ _ hs hk
    obtain ⟨k, rfl⟩ : ∃ j, k = j + 1 := ⟨k - 1, by omega⟩
    obtain ⟨hshort, hpend⟩ := ReadFull_short inp 4 (by rw [hs]; simp)
    rcases hr : ReadFull inp 4 with ⟨d, e, inp2⟩
    rw [hr] at hshort hpend
    cases e with
    | none => simp at hshort
    | some e => exact ⟨inp2, hpend, by simp [decrLoop, hr]⟩
  | cons ch chunks ih =>
    intro nonces k inp written hfit hn hcount hs hk
    obtain ⟨k, rfl⟩ : ∃ j, k = j + 1 := ⟨k - 1, by omega⟩
    cases nonces with
    | nil => simp at hcount
    | cons nonce nonces =>
      have hnonce : nonce.length = c.gcm.NonceSize := hn nonce (List.mem_cons_self _ _)
      have hctlen := crypted_length c.gcm hlen nonce ch
      have hch := hfit ch (List.mem_cons_self _ _)
      rw [List.zipWith_cons_cons, List.flatten_cons, frame, List.append_assoc] at hs
      obtain ⟨a1, a2, a3, _⟩ := ReadFull_stream inp 4 _ _ hs (PutUint32_length _)
      rcases hr1 : ReadFull inp 4 with ⟨lnb, e, inp1⟩
      rw [hr1] at a1 a2 a3
      simp only at a1 a2 a3
      subst a1 a2
      have hln : Uint32 (PutUint32 (crypted c.gcm nonce ch).length) =
          (crypted c.gcm nonce ch).length := Uint32_PutUint32 _ (by omega)
      obtain ⟨b1, b2, b3, _⟩ := ReadFull_stream inp1 (crypted c.gcm nonce ch).length _ _ a3 rfl
      rcases hr2 : ReadFull inp1 (crypted c.gcm nonce ch).length with ⟨ct, e, inp2⟩
      rw [hr2] at b1 b2 b3
      simp only at b1 b2 b3
      subst b1 b2
      obtain ⟨inp3, hpend, hrun⟩ := ih nonces k inp2 (written ++ [ch])
        (fun x hx => hfit x (List.mem_cons_of_mem _ hx))
        (fun x hx => hn x (List.mem_cons_of_mem _ hx))
        (by simpa using hcount) b3 (by simp at hk; omega)
      refine ⟨inp3, hpend, ?_⟩
      have hnot : ¬ bufLen < (crypted c.gcm nonce ch).length := by omega
      simp only [decrLoop, hr1, hln, hnot, if_false, hr2,
        Decrypt_crypted c hopen nonce ch hnonce, Writer.Write]
      rw [hrun, List.append_assoc, List.singleton_append]

theorem shift_run (source : Int → Nat → UInt8) (bufSize : Nat) (seed : Option Int)
    (chunks : List Bytes) (k : Nat) (hfit : ∀ ch ∈ chunks, ch.length ≤ bufSize)
    (hk : chunks.length < k) :
    shift source k ⟨chunks⟩ ⟨[], none⟩ bufSize seed =
      some ⟨⟨[]⟩, ⟨onWire source seed chunks, none⟩, true, true, .returned⟩ := by
  cases seed with
  | none =>
    obtain ⟨out2, h1, h2⟩ := shiftLoop_run bufSize chunks k (.plain ⟨[], none⟩) hfit rfl hk
    simp only [shift, h1, h2]
    simp [Out.base, Out.encode, onWire]
  | some s =>
    obtain ⟨out2, h1, h2⟩ := shiftLoop_run bufSize chunks k
      (.xor (NewXorWriter ⟨[], none⟩ (NewRand source s))) hfit rfl hk
    simp only [shift, h1, h2]
    rfl

theorem encr_run (source : Int → Nat → UInt8) (c : AESCrypt) (bufSize minimal_chunk : Nat)
    (seed : Option Int) (chunks nonces : List Bytes) (randReader : Reader) (more : Bytes)
    (k : Nat) (hfit : ∀ ch ∈ chunks, ch.length ≤ bufSize)
    (hn : ∀ n ∈ nonces, n.length = c.gcm.NonceSize) (hcount : chunks.length = nonces.length)
    (hrng : randReader.pending.flatten = nonces.flatten ++ more) (hk : chunks.length < k) :
    encr source k ⟨chunks⟩ ⟨[], none⟩ bufSize minimal_chunk c seed randReader =
      some ⟨⟨[]⟩, ⟨onWire source seed (List.zipWith (frame c.gcm) nonces chunks), none⟩,
        true, true, .returned⟩ := by
  cases seed with
  | none =>
    obtain ⟨out2, h1, h2⟩ := encrLoop_run c bufSize chunks nonces k (.plain ⟨[], none⟩)
      randReader more hfit hn hcount hrng rfl hk
    simp only [encr, h1, h2]
    simp [Out.base, Out.encode, onWire]
  | some s =>
    obtain ⟨out2, h1, h2⟩ := encrLoop_run c bufSize chunks nonces k
      (.xor (NewXorWriter ⟨[], none⟩ (NewRand source s))) randReader more hfit hn hcount hrng
      rfl hk
    simp only [encr, h1, h2]
    rfl

theorem decrBufLen_small (bufSize : Nat) (h : bufSize < 2 ^ 15) :
    decrBufLen bufSize = 2 * bufSize := by
  simp only [decrBufLen]
  omega

theorem decr_run (source : Int → Nat → UInt8) (c : AESCrypt) (hopen : c.gcm.OpenInvertsSeal)
    (hlen : c.gcm.SealLength) (bufSize : Nat) (hB : bufSize < 2 ^ 15) (seed : Option Int)
    (chunks nonces segs : List Bytes) (k : Nat)
    (hfit : ∀ ch ∈ chunks, c.gcm.NonceSize + ch.length + c.gcm.Overhead ≤ 2 * bufSize)
    (hn : ∀ n ∈ nonces, n.length = c.gcm.NonceSize) (hcount : chunks.length = nonces.length)
    (hsegs : segs.flatten =
      (onWire source seed (List.zipWith (frame c.gcm) nonces chunks)).flatten)
    (hk : chunks.length < k) :
    decr source k ⟨segs⟩ ⟨[], none⟩ bufSize c seed =
      some ⟨⟨[]⟩, ⟨chunks, none⟩, true, true, .returned⟩ := by
  have hbuf : decrBufLen bufSize < 2 ^ 32 := by
    rw [decrBufLen_small bufSize hB]
    omega
  have hfit2 : ∀ ch ∈ chunks,
      c.gcm.NonceSize + ch.length + c.gcm.Overhead ≤ decrBufLen bufSize := by
    rw [decrBufLen_small bufSize hB]
    exact hfit
  cases seed with
  | none =>
    obtain ⟨inp2, h1, h2⟩ := decrLoop_run c hopen hlen (decrBufLen bufSize) hbuf chunks nonces k
      (.plain ⟨segs⟩) [] hfit2 hn hcount (by simpa [Inp.stream, onWire] using hsegs) hk
    simp only [decr, h2]
    rw [Reader_eta inp2.base h1]
    rfl
  | some s =>
    obtain ⟨inp2, h1, h2⟩ := decrLoop_run c hopen hlen (decrBufLen bufSize) hbuf chunks nonces k
      (.xor (NewXorReader ⟨segs⟩ (NewRand source s))) [] hfit2 hn hcount
      (by
        simp only [Inp.stream, NewXorReader, NewRand, hsegs, onWire]
        rw [xorWrites_flatten, xorAt_xorAt]) hk
    simp only [decr, h2]
    rw [Reader_eta inp2.base h1]
    rfl

/-! ## Plain relay -/

/-- C9. In-order delivery by `shift` without a seed: for every buffer size and every
sequence of successful source reads (each at most the buffer size) ended by a read error,
every destination write succeeding, `shift` returns after writing exactly the chunks it
read, in the order read, so the bytes written, concatenated, are the bytes read,
concatenated. -/
theorem shift_in_order (source : Int → Nat → UInt8) (bufSize : Nat) (chunks : List Bytes)
    (k : Nat) (hfit : ∀ ch ∈ chunks, ch.length ≤ bufSize) (hk : chunks.length < k) :
    ∃ r, shift source k ⟨chunks⟩ ⟨[], none⟩ bufSize none = some r ∧
      r.input.pending = [] ∧ r.output.written = chunks ∧
      r.output.written.flatten = chunks.flatten ∧ r.exit = .returned :=
  ⟨_, shift_run source bufSize none chunks k hfit hk, rfl, rfl, rfl, rfl⟩

theorem shift_in_order_witness :
    (∀ ch ∈ ([[1, 2], [3, 4, 5, 6], [], [7]] : List Bytes), ch.length ≤ 4) ∧
    ([[1, 2], [3, 4, 5, 6], [], [7]] : List Bytes).length < 5 ∧
    ∃ r, shift toySource 5 ⟨[[1, 2], [3, 4, 5, 6], [], [7]]⟩ ⟨[], none⟩ 4 none = some r ∧
      r.input.pending = [] ∧ r.output.written = [[1, 2], [3, 4, 5, 6], [], [7]] ∧
      r.output.written.flatten = ([[1, 2], [3, 4, 5, 6], [], [7]] : List Bytes).flatten ∧
      r.exit = .returned :=
  ⟨by decide, by decide,
    shift_in_order toySource 4 [[1, 2], [3, 4, 5, 6], [], [7]] 5 (by decide) (by decide)⟩

/-! ## Wire format -/

/-- C7. Wire format: when `encr` reads the chunks and the random source supplies a nonce
for each, `encr` returns after exactly one write per chunk, and the payload of that write is
the 4-byte big-endian length of the ciphertext followed by the ciphertext (nonce, sealed
payload and tag as returned by `Encrypt`), XORed with the next stretch of the keystream when
a seed is configured; the first 4 bytes of each such frame decode to the length of the rest
of the frame. -/
theorem encr_wire_format (source : Int → Nat → UInt8) (c : AESCrypt) (hlen : c.gcm.SealLength)
    (bufSize minimal_chunk : Nat) (hsmall : c.gcm.NonceSize + bufSize + c.gcm.Overhead < 2 ^ 32)
    (seed : Option Int) (chunks nonces : List Bytes) (randReader : Reader) (more : Bytes)
    (k : Nat) (hfit : ∀ ch ∈ chunks, ch.length ≤ bufSize)
    (hn : ∀ n ∈ nonces, n.length = c.gcm.NonceSize) (hcount : chunks.length = nonces.length)
    (hrng : randReader.pending.flatten = nonces.flatten ++ more) (hk : chunks.length < k) :
    encr source k ⟨chunks⟩ ⟨[], none⟩ bufSize minimal_chunk c seed randReader =
      some ⟨⟨[]⟩,
        ⟨onWire source seed (List.zipWith (fun nonce plain =>
          PutUint32 (nonce ++ c.gcm.sealed nonce plain []).length ++
            (nonce ++ c.gcm.sealed nonce plain [])) nonces chunks), none⟩,
        true, true, .returned⟩ ∧
    ∀ i (h : i < (List.zipWith (frame c.gcm) nonces chunks).length),
      Uint32 (((List.zipWith (frame c.gcm) nonces chunks).get ⟨i, h⟩).take 4) =
        (((List.zipWith (frame c.gcm) nonces chunks).get ⟨i, h⟩).drop 4).length := by
  refine ⟨encr_run source c bufSize minimal_chunk seed chunks nonces randReader more k hfit hn
    hcount hrng hk, ?_⟩
  intro i h
  have hi : i < nonces.length ∧ i < chunks.length := by
    simpa [List.length_zipWith] using h
  have hget : (List.zipWith (frame c.gcm) nonces chunks).get ⟨i, h⟩ =
      frame c.gcm (nonces.get ⟨i, hi.1⟩) (chunks.get ⟨i, hi.2⟩) := by
    simp [List.getElem_zipWith]
  rw [hget]
  apply frame_header
  rw [crypted_length c.gcm hlen, hn _ (List.get_mem _ _ _)]
  have := hfit _ (List.get_mem chunks i hi.2)
  omega

theorem encr_wire_format_witness :
    toyAEAD.SealLength ∧ toyAEAD.NonceSize + 4 + toyAEAD.Overhead < 2 ^ 32 ∧
    (∀ ch ∈ ([[], [1, 2]] : List Bytes), ch.length ≤ 4) ∧
    (∀ n ∈ ([List.replicate 12 9, List.replicate 12 8] : List Bytes),
      n.length = toyAEAD.NonceSize) ∧
    (encr toySource 3 ⟨[[], [1, 2]]⟩ ⟨[], none⟩ 4 4 ⟨toyAEAD⟩ none
        ⟨[List.replicate 12 9, List.replicate 12 8]⟩ =
      some ⟨⟨[]⟩,
        ⟨onWire toySource none (List.zipWith (fun nonce plain =>
          PutUint32 (nonce ++ toyAEAD.sealed nonce plain []).length ++
            (nonce ++ toyAEAD.sealed nonce plain []))
          [List.replicate 12 9, List.replicate 12 8] [[], [1, 2]]), none⟩,
        true, true, .returned⟩ ∧
    ∀ i (h : i < (List.zipWith (frame toyAEAD) [List.replicate 12 9, List.replicate 12 8]
        [[], [1, 2]]).length),
      Uint32 (((List.zipWith (frame toyAEAD) [List.replicate 12 9, List.replicate 12 8]
        [[], [1, 2]]).get ⟨i, h⟩).take 4) =
        (((List.zipWith (frame toyAEAD) [List.replicate 12 9, List.replicate 12 8]
          [[], [1, 2]]).get ⟨i, h⟩).drop 4).length) :=
  ⟨toyAEAD_SealLength, by decide, by decide, by decide,
    encr_wire_format toySource ⟨toyAEAD⟩ toyAEAD_SealLength 4 4 (by decide) none [[], [1, 2]]
      [List.replicate 12 9, List.replicate 12 8] ⟨[List.replicate 12 9, List.replicate 12 8]⟩ []
      3 (by decide) (by decide) rfl (by decide) (by decide)⟩

/-! ## Framing round trip -/

/-- C2, as stated, fails: with buffer size 1 the one-byte chunk `[7]` is framed by `encr` as
a 29-byte ciphertext, and `decr` with the same buffer size, fed exactly the bytes `encr`
wrote, slices its 2-byte decode buffer out of range and writes nothing. -/
theorem small_buffer_breaks_framing :
    encr toySource 2 ⟨[[7]]⟩ ⟨[], none⟩ 1 1 ⟨toyAEAD⟩ none ⟨[List.replicate 12 9]⟩ =
      some ⟨⟨[]⟩, ⟨[[0, 0, 0, 29] ++ List.replicate 12 9 ++ [7] ++ List.replicate 16 0], none⟩,
        true, true, .returned⟩ ∧
    decr toySource 2 ⟨[[0, 0, 0, 29] ++ List.replicate 12 9 ++ [7] ++ List.replicate 16 0]⟩
        ⟨[], none⟩ 1 ⟨toyAEAD⟩ none =
      some ⟨⟨[List.replicate 12 9 ++ [7] ++ List.replicate 16 0]⟩, ⟨[], none⟩, true, true,
        .panicked (.sliceBounds 29 2)⟩ := by
  decide

/-- C2, amended. Framing round trip: for every buffer size `B` below `2^15`, every key and
every plaintext chunk of at most `B` bytes (so every chunk of 1 to `B` bytes) whose
ciphertext (nonce, chunk and tag) is at most `2 * B` bytes long, if `encr` (buffer size `B`,
no seed) reads that chunk, it returns after writing some bytes, and `decr` (same buffer
size, same key, no seed), fed those bytes cut into segments in any way, returns after
writing exactly the original chunk. -/
theorem framing_round_trip (source : Int → Nat → UInt8) (lib : Crypto) (key : Bytes)
    (enc dec : AESCrypt) (henc : newAESCrypt lib key = .ok enc)
    (hdec : newAESCrypt lib key = .ok dec) (hopen : enc.gcm.OpenInvertsSeal)
    (hlen : enc.gcm.SealLength) (bufSize minimal_chunk : Nat) (hB : bufSize < 2 ^ 15)
    (chunk nonce more : Bytes) (randReader : Reader) (kE kD : Nat)
    (hchunk : chunk.length ≤ bufSize)
    (hfit : enc.gcm.NonceSize + chunk.length + enc.gcm.Overhead ≤ 2 * bufSize)
    (hn : nonce.length = enc.gcm.NonceSize)
    (hrng : randReader.pending.flatten = nonce ++ more) (hkE : 1 < kE) (hkD : 1 < kD) :
    ∃ sent, encr source kE ⟨[chunk]⟩ ⟨[], none⟩ bufSize minimal_chunk enc none randReader =
        some ⟨⟨[]⟩, ⟨sent, none⟩, true, true, .returned⟩ ∧
      ∀ segs : List Bytes, segs.flatten = sent.flatten →
        decr source kD ⟨segs⟩ ⟨[], none⟩ bufSize dec none =
          some ⟨⟨[]⟩, ⟨[chunk], none⟩, true, true, .returned⟩ := by
  have hc := newAESCrypt_inj lib key enc dec henc hdec
  subst hc
  refine ⟨_, encr_run source enc bufSize minimal_chunk none [chunk] [nonce] randReader more kE
    (by simpa using hchunk) (by simpa using hn) rfl (by simpa using hrng) (by simpa using hkE),
    ?_⟩
  intro segs hsegs
  exact decr_run source enc hopen hlen bufSize hB none [chunk] [nonce] segs kD
    (by simpa using hfit) (by simpa using hn) rfl hsegs (by simpa using hkD)

theorem framing_round_trip_witness :
    newAESCrypt toyCrypto (List.replicate 16 7) = .ok ⟨toyAEAD⟩ ∧
    (64 : Nat) < 2 ^ 15 ∧ ([1, 2, 3] : Bytes).length ≤ 64 ∧
    toyAEAD.NonceSize + ([1, 2, 3] : Bytes).length + toyAEAD.Overhead ≤ 2 * 64 ∧
    (List.replicate 12 (9 : UInt8)).length = toyAEAD.NonceSize ∧
    ∃ sent, encr toySource 2 ⟨[[1, 2, 3]]⟩ ⟨[], none⟩ 64 64 ⟨toyAEAD⟩ none
          ⟨[List.replicate 12 9]⟩ =
        some ⟨⟨[]⟩, ⟨sent, none⟩, true, true, .returned⟩ ∧
      ∀ segs : List Bytes, segs.flatten = sent.flatten →
        decr toySource 2 ⟨segs⟩ ⟨[], none⟩ 64 ⟨toyAEAD⟩ none =
          some ⟨⟨[]⟩, ⟨[[1, 2, 3]], none⟩, true, true, .returned⟩ :=
  ⟨rfl, by decide, by decide, by decide, by decide,
    framing_round_trip toySource toyCrypto (List.replicate 16 7) ⟨toyAEAD⟩ ⟨toyAEAD⟩ rfl rfl
      toyAEAD_OpenInvertsSeal toyAEAD_SealLength 64 64 (by decide) [1, 2, 3]
      (List.replicate 12 9) [] ⟨[List.replicate 12 9]⟩ 2 2 (by decide) (by decide) (by decide)
      (by decide) (by decide) (by decide)⟩

/-! ## Encrypted and obfuscated stream -/

/-- C4. With buffer size 1024, the same key and the same seed on both ends, for every
sequence of plaintext chunks of at most 1024 bytes read by `encr`, `encr` returns after
writing some payloads, and for every way of cutting the bytes of those payloads into
segments delivered by successful reads, `decr` returns after writing exactly those chunks
in the same order (so what `decr` wrote, concatenated, is what `encr` read, concatenated);
that `Open` inverts `Seal` and that sealing adds the tag length are hypotheses. -/
theorem encrypted_obfuscated_stream (source : Int → Nat → UInt8) (lib : Crypto) (key : Bytes)
    (enc dec : AESCrypt) (henc : newAESCrypt lib key = .ok enc)
    (hdec : newAESCrypt lib key = .ok dec) (hopen : enc.gcm.OpenInvertsSeal)
    (hlen : enc.gcm.SealLength) (hov : enc.gcm.NonceSize + enc.gcm.Overhead ≤ 1024)
    (seed : Int) (minimal_chunk : Nat) (chunks nonces : List Bytes) (randReader : Reader)
    (more : Bytes) (kE kD : Nat) (hfit : ∀ ch ∈ chunks, ch.length ≤ 1024)
    (hn : ∀ n ∈ nonces, n.length = enc.gcm.NonceSize) (hcount : chunks.length = nonces.length)
    (hrng : randReader.pending.flatten = nonces.flatten ++ more) (hkE : chunks.length < kE)
    (hkD : chunks.length < kD) :
    ∃ sent, encr source kE ⟨chunks⟩ ⟨[], none⟩ 1024 minimal_chunk enc (some seed) randReader =
        some ⟨⟨[]⟩, ⟨sent, none⟩, true, true, .returned⟩ ∧
      ∀ segs : List Bytes, segs.flatten = sent.flatten →
        decr source kD ⟨segs⟩ ⟨[], none⟩ 1024 dec (some seed) =
          some ⟨⟨[]⟩, ⟨chunks, none⟩, true, true, .returned⟩ := by
  have hc := newAESCrypt_inj lib key enc dec henc hdec
  subst hc
  refine ⟨_, encr_run source enc 1024 minimal_chunk (some seed) chunks nonces randReader more kE
    hfit hn hcount hrng hkE, ?_⟩
  intro segs hsegs
  refine decr_run source enc hopen hlen 1024 (by decide) (some seed) chunks nonces segs kD
    ?_ hn hcount hsegs hkD
  intro ch hch
  have := hfit ch hch
  omega

theorem encrypted_obfuscated_stream_witness :
    newAESCrypt toyCrypto (List.replicate 16 7) = .ok ⟨toyAEAD⟩ ∧
    toyAEAD.NonceSize + toyAEAD.Overhead ≤ 1024 ∧
    (∀ ch ∈ ([[1, 2], [3]] : List Bytes), ch.length ≤ 1024) ∧
    (∀ n ∈ ([List.replicate 12 9, List.replicate 12 8] : List Bytes),
      n.length = toyAEAD.NonceSize) ∧
    ∃ sent, encr toySource 3 ⟨[[1, 2], [3]]⟩ ⟨[], none⟩ 1024 1024 ⟨toyAEAD⟩ (some 5)
          ⟨[List.replicate 12 9, List.replicate 12 8]⟩ =
        some ⟨⟨[]⟩, ⟨sent, none⟩, true, true, .returned⟩ ∧
      ∀ segs : List Bytes, segs.flatten = sent.flatten →
        decr toySource 3 ⟨segs⟩ ⟨[], none⟩ 1024 ⟨toyAEAD⟩ (some 5) =
          some ⟨⟨[]⟩, ⟨[[1, 2], [3]], none⟩, true, true, .returned⟩ :=
  ⟨rfl, by decide, by decide, by decide,
    encrypted_obfuscated_stream toySource toyCrypto (List.replicate 16 7) ⟨toyAEAD⟩ ⟨toyAEAD⟩
      rfl rfl toyAEAD_OpenInvertsSeal toyAEAD_SealLength (by decide) 5 1024 [[1, 2], [3]]
      [List.replicate 12 9, List.replicate 12 8] ⟨[List.replicate 12 9, List.replicate 12 8]⟩
      [] 3 3 (by decide) (by decide) rfl (by decide) (by decide) (by decide)⟩

/-! ## Obfuscation round trip -/

theorem writeAll_run : ∀ (writes : List Bytes) (w : XorWriter), w.out.budget = none →
    (writeAll w writes).out =
      ⟨w.out.written ++ xorWrites w.entopy.stream w.entopy.pos writes, none⟩ := by
  intro writes
  induction writes with
  | nil =>
    intro w hb
    simp only [writeAll, xorWrites, List.append_nil]
    exact Writer_eta _ hb
  | cons p ps ih =>
    intro w hb
    obtain ⟨_, h2, h3⟩ := XorWriter_Write_ok w p hb
    have := ih (w.Write p).2.2 (by rw [h2])
    simp only [writeAll, xorWrites]
    rw [this, h2, h3, List.append_assoc, List.singleton_append]

theorem readAll_run : ∀ (segs : List Bytes) (reqs : List Nat) (r : XorReader),
    r.inp.pending = segs → List.Forall₂ (fun seg n => seg.length ≤ n) segs reqs →
    (readAll r reqs).1 =
      (xorWrites r.entopy.stream r.entopy.pos segs).map (fun d => (d, none)) := by
  intro segs
  induction segs with
  | nil =>
    intro reqs r _ hf
    cases hf
    rfl
  | cons seg segs ih =>
    intro reqs r hp hf
    cases hf with
    | cons hn hrest =>
      obtain ⟨h1, h2, h3, h4⟩ := XorReader_Read_fits r seg segs _ hp hn
      have := ih _ (r.Read _).2.2 (by rw [h3]) hrest
      simp only [readAll, xorWrites, List.map_cons]
      rw [this, h1, h2, h4]

/-- C3. Obfuscation round trip: for every seed, every sequence of payloads handed to
successive `XorWriter.Write` calls and every way of cutting the bytes that reached the
connection into segments returned, with no error, by the underlying reads of successive
`XorReader.Read` calls, writer and reader drawing from generators seeded with the same
seed, no read reports an error and the bytes returned by the reads, concatenated, are the
bytes written, concatenated. -/
theorem xor_round_trip (source : Int → Nat → UInt8) (seed : Int) (writes segs : List Bytes)
    (reqs : List Nat)
    (hsplit : segs.flatten =
      (writeAll (NewXorWriter ⟨[], none⟩ (NewRand source seed)) writes).out.written.flatten)
    (hreads : List.Forall₂ (fun seg n => seg.length ≤ n) segs reqs) :
    ((readAll (NewXorReader ⟨segs⟩ (NewRand source seed)) reqs).1.map Prod.fst).flatten =
      writes.flatten ∧
    (readAll (NewXorReader ⟨segs⟩ (NewRand source seed)) reqs).1.map Prod.snd =
      List.replicate segs.length none := by
  have hw := writeAll_run writes (NewXorWriter ⟨[], none⟩ (NewRand source seed)) rfl
  rw [hw] at hsplit
  have hr := readAll_run segs reqs (NewXorReader ⟨segs⟩ (NewRand source seed)) rfl hreads
  rw [hr]
  have hk : (NewXorWriter ⟨[], none⟩ (NewRand source seed)).entopy = ⟨source seed, 0⟩ := rfl
  have hk2 : (NewXorReader ⟨segs⟩ (NewRand source seed)).entopy = ⟨source seed, 0⟩ := rfl
  have hw0 : (NewXorWriter ⟨[], none⟩ (NewRand source seed)).out.written = [] := rfl
  rw [hk, hw0] at hsplit
  rw [hk2]
  simp only [List.nil_append, xorWrites_flatten] at hsplit
  constructor
  · rw [List.map_map]
    have hid : (Prod.fst ∘ fun d : Bytes => (d, (none : Option Error))) = id := rfl
    rw [hid, List.map_id, xorWrites_flatten, hsplit, xorAt_xorAt]
  · rw [List.map_map]
    have hlen : ∀ (ks : Nat → UInt8) (pos : Nat) (l : List Bytes),
        List.map (Prod.snd ∘ fun d : Bytes => (d, (none : Option Error))) (xorWrites ks pos l) =
          List.replicate l.length none := by
      intro ks pos l
      induction l generalizing pos with
      | nil => rfl
      | cons a l ih => simp [xorWrites, List.replicate_succ, ih]
    exact hlen _ _ _

theorem xor_round_trip_witness :
    ([[42, 44], [50, 48, 50, 60]] : List Bytes).flatten =
      (writeAll (NewXorWriter ⟨[], none⟩ (NewRand toySource 42))
        [[1, 2, 3], [4], [], [5, 6]]).out.written.flatten ∧
    List.Forall₂ (fun (seg : Bytes) n => seg.length ≤ n) [[42, 44], [50, 48, 50, 60]] [2, 9] ∧
    ((readAll (NewXorReader ⟨[[42, 44], [50, 48, 50, 60]]⟩ (NewRand toySource 42))
        [2, 9]).1.map Prod.fst).flatten = ([[1, 2, 3], [4], [], [5, 6]] : List Bytes).flatten ∧
    (readAll (NewXorReader ⟨[[42, 44], [50, 48, 50, 60]]⟩ (NewRand toySource 42))
        [2, 9]).1.map Prod.snd = List.replicate ([[42, 44], [50, 48, 50, 60]] : List Bytes).length none :=
  ⟨by decide, by simp,
    xor_round_trip toySource 42 [[1, 2, 3], [4], [], [5, 6]] [[42, 44], [50, 48, 50, 60]] [2, 9]
      (by decide) (by simp)⟩

/-! ## Zero-byte reads -/

/-- C8, as stated, fails: after a source read that returns zero bytes and no error, `shift`
and `encr` go on; here both read the later chunk `[1, 2]` and write it (as it is, or
framed) after having written the empty chunk (as it is, or framed). -/
theorem zero_byte_read_does_not_end_loop :
    shift toySource 3 ⟨[[], [1, 2]]⟩ ⟨[], none⟩ 4 none =
      some ⟨⟨[]⟩, ⟨[[], [1, 2]], none⟩, true, true, .returned⟩ ∧
    encr toySource 3 ⟨[[], [1, 2]]⟩ ⟨[], none⟩ 4 4 ⟨toyAEAD⟩ none
        ⟨[List.replicate 12 9, List.replicate 12 8]⟩ =
      some ⟨⟨[]⟩,
        ⟨[[0, 0, 0, 28] ++ List.replicate 12 9 ++ List.replicate 16 0,
          [0, 0, 0, 30] ++ List.replicate 12 8 ++ [1, 2] ++ List.replicate 16 0], none⟩,
        true, true, .returned⟩ := by
  decide

theorem completed_zero (budget : Option Nat) : completed 0 budget = 0 := by
  cases budget <;> simp [completed]

theorem completed_dead (steps : Nat) : completed steps (some 0) = 0 := by
  simp [completed]

theorem completed_succ (steps : Nat) (budget : Option Nat) (h : budget ≠ some 0) :
    completed (steps + 1) budget = completed steps (budget.map (fun m => m - 1)) + 1 := by
  cases budget with
  | none => rfl
  | some m =>
    have hm : m ≠ 0 := fun h0 => h (by rw [h0])
    simp only [completed, Option.map_some']
    omega

theorem budget_after (budget : Option Nat) (t : Nat) :
    (budget.map (fun m => m - 1)).map (fun m => m - t) = budget.map (fun m => m - (t + 1)) := by
  cases budget with
  | none => rfl
  | some m =>
    simp only [Option.map_some', Option.some.injEq]
    omega

theorem Writer_budget_zero (w : Writer) (budget : Option Nat) (h : w.budget = budget) :
    w = ⟨w.written ++ [], budget.map (fun m => m - 0)⟩ := by
  obtain ⟨written, b⟩ := w
  simp only at h
  subst h
  cases b <;> simp

theorem Writer_Write_live (w : Writer) (p : Bytes) (h : w.budget ≠ some 0) :
    w.Write p = (p.length, none, ⟨w.written ++ [p], w.budget.map (fun m => m - 1)⟩) := by
  obtain ⟨written, budget⟩ := w
  cases budget with
  | none => rfl
  | some m =>
    cases m with
    | zero => exact absurd rfl h
    | succ m => rfl

theorem Writer_Write_dead (w : Writer) (p : Bytes) (h : w.budget = some 0) :
    w.Write p = (0, some Error.writeFailed, w) := by
  obtain ⟨written, budget⟩ := w
  simp only at h
  subst h
  rfl

theorem XorWriter_Write_live (w : XorWriter) (p : Bytes) (h : w.out.budget ≠ some 0) :
    (w.Write p).2.1 = none ∧
    (w.Write p).2.2.out = ⟨w.out.written ++ [xorAt w.entopy.stream w.entopy.pos p],
      w.out.budget.map (fun m => m - 1)⟩ ∧
    (w.Write p).2.2.entopy = ⟨w.entopy.stream, w.entopy.pos + p.length⟩ := by
  obtain ⟨e, out, buf⟩ := w
  simp only at h
  simp [XorWriter.Write, Rand.Read, Writer_Write_live out _ h, zipWith_keystream]

theorem XorWriter_Write_dead (w : XorWriter) (p : Bytes) (h : w.out.budget = some 0) :
    (w.Write p).2.1 = some Error.writeFailed ∧ (w.Write p).2.2.out = w.out := by
  obtain ⟨e, out, buf⟩ := w
  simp only at h
  simp [XorWriter.Write, Rand.Read, Writer_Write_dead out _ h]

theorem Out_Write_live (out : Out) (p : Bytes) (h : out.base.budget ≠ some 0) :
    (out.Write p).2.1 = none ∧
    (out.Write p).2.2.base =
      ⟨out.base.written ++ out.encode [p], out.base.budget.map (fun m => m - 1)⟩ ∧
    ∀ ps, out.encode (p :: ps) = out.encode [p] ++ (out.Write p).2.2.encode ps := by
  cases out with
  | plain w =>
    simp only [Out.base] at h
    simp [Out.Write, Writer_Write_live w p h, Out.base, Out.encode]
  | xor w =>
    simp only [Out.base] at h
    obtain ⟨h1, h2, h3⟩ := XorWriter_Write_live w p h
    simp [Out.Write, Out.base, Out.encode, h1, h2, h3, xorWrites]

theorem Out_Write_dead (out : Out) (p : Bytes) (h : out.base.budget = some 0) :
    (out.Write p).2.1 = some Error.writeFailed ∧ (out.Write p).2.2.base = out.base := by
  cases out with
  | plain w =>
    simp only [Out.base] at h
    simp [Out.Write, Writer_Write_dead w p h, Out.base]
  | xor w =>
    simp only [Out.base] at h
    obtain ⟨h1, h2⟩ := XorWriter_Write_dead w p h
    simp [Out.Write, Out.base, h1, h2]

theorem Encrypt_fails (c : AESCrypt) (randReader : Reader) (plain : Bytes)
    (h : randReader.pending.flatten.length < c.gcm.NonceSize) :
    (c.Encrypt randReader plain).2.1 ≠ none := by
  obtain ⟨h1, _⟩ := ReadFull_short (.plain randReader) c.gcm.NonceSize h
  rcases hrf : ReadFull (.plain randReader) c.gcm.NonceSize with ⟨d, e, inp2⟩
  rw [hrf] at h1
  cases e with
  | none => exact absurd rfl h1
  | some e => simp [AESCrypt.Encrypt, hrf]

theorem shiftLoop_exact (bufSize : Nat) :
    ∀ (chunks : List Bytes) (k : Nat) (out : Out) (budget : Option Nat),
    (∀ ch ∈ chunks, ch.length ≤ bufSize) → out.base.budget = budget → chunks.length < k →
    ∃ out2, shiftLoop k ⟨chunks⟩ out bufSize =
        some (⟨chunks.drop (completed chunks.length budget + 1)⟩, out2) ∧
      out2.base = ⟨out.base.written ++ out.encode (chunks.take (completed chunks.length budget)),
        budget.map (fun m => m - completed chunks.length budget)⟩ := by
  intro chunks
  induction chunks with
  | nil =>
    intro k out budget _ hb hk
    obtain ⟨k, rfl⟩ : ∃ j, k = j + 1 := ⟨k - 1, by omega⟩
    refine ⟨out, by simp [shiftLoop, Reader.Read], ?_⟩
    rw [List.length_nil, completed_zero, List.take_nil, Out_encode_nil]
    exact Writer_budget_zero _ _ hb
  | cons ch chunks ih =>
    intro k out budget hfit hb hk
    obtain ⟨k, rfl⟩ : ∃ j, k = j + 1 := ⟨k - 1, by omega⟩
    have hch : ch.length ≤ bufSize := hfit ch (List.mem_cons_self _ _)
    by_cases hdead : budget = some 0
    · subst hdead
      obtain ⟨d1, d2⟩ := Out_Write_dead out ch hb
      rcases hw : out.Write ch with ⟨n, e, out1⟩
      rw [hw] at d1 d2
      simp only at d1 d2
      subst d1
      refine ⟨out1, ?_, ?_⟩
      · simp [shiftLoop, Reader_Read_fits ch chunks bufSize hch, hw, completed_dead]
      · rw [completed_dead, List.take_zero, Out_encode_nil, d2]
        exact Writer_budget_zero _ _ hb
    · have hlive : out.base.budget ≠ some 0 := by rw [hb]; exact hdead
      obtain ⟨h1, h2, h3⟩ := Out_Write_live out ch hlive
      rcases hw : out.Write ch with ⟨n, e, out1⟩
      rw [hw] at h1 h2 h3
      simp only at h1 h2 h3
      subst h1
      obtain ⟨out2, hrun, hbase⟩ := ih k out1 (budget.map (fun m => m - 1))
        (fun c hc => hfit c (List.mem_cons_of_mem _ hc)) (by rw [h2, hb])
        (by simp at hk; omega)
      refine ⟨out2, ?_, ?_⟩
      · simp only [shiftLoop, Reader_Read_fits ch chunks bufSize hch, hw, List.length_cons,
          completed_succ chunks.length budget hdead, List.drop_succ_cons]
        exact hrun
      · rw [hbase, h2, List.length_cons, completed_succ chunks.length budget hdead,
          List.take_succ_cons,
          h3 (List.take (completed chunks.length (budget.map (fun m => m - 1))) chunks),
          List.append_assoc, budget_after]

theorem encrLoop_exact (c : AESCrypt) (bufSize : Nat) :
    ∀ (chunks nonces : List Bytes) (k : Nat) (out : Out) (budget : Option Nat)
      (randReader : Reader) (more : Bytes),
    (∀ ch ∈ chunks, ch.length ≤ bufSize) → (∀ n ∈ nonces, n.length = c.gcm.NonceSize) →
    randReader.pending.flatten = nonces.flatten ++ more →
    (more.length < c.gcm.NonceSize ∨ chunks.length ≤ nonces.length) →
    out.base.budget = budget → chunks.length < k →
    ∃ out2, encrLoop k ⟨chunks⟩ out bufSize c randReader =
        some (⟨chunks.drop (completed (min chunks.length nonces.length) budget + 1)⟩, out2) ∧
      out2.base = ⟨out.base.written ++ out.encode ((List.zipWith (frame c.gcm) nonces chunks).take
          (completed (min chunks.length nonces.length) budget)),
        budget.map (fun m => m - completed (min chunks.length nonces.length) budget)⟩ := by
  intro chunks
  induction chunks with
  | nil =>
    intro nonces k out budget randReader more _ _ _ _ hb hk
    obtain ⟨k, rfl⟩ : ∃ j, k = j + 1 := ⟨k - 1, by omega⟩
    refine ⟨out, by simp [encrLoop, Reader.Read], ?_⟩
    rw [List.length_nil, Nat.zero_min, completed_zero, List.take_zero, Out_encode_nil]
    exact Writer_budget_zero _ _ hb
  | cons ch chunks ih =>
    intro nonces k out budget randReader more hfit hn hrng hmore hb hk
    obtain ⟨k, rfl⟩ : ∃ j, k = j + 1 := ⟨k - 1, by omega⟩
    have hch : ch.length ≤ bufSize := hfit ch (List.mem_cons_self _ _)
    cases nonces with
    | nil =>
      have hshort : randReader.pending.flatten.length < c.gcm.NonceSize := by
        rcases hmore with h | h
        · simpa [hrng] using h
        · simp at h
      have hfail := Encrypt_fails c randReader ch hshort
      rcases he : c.Encrypt randReader ch with ⟨ct, e, rng1⟩
      rw [he] at hfail
      cases e with
      | none => exact absurd rfl hfail
      | some e =>
        refine ⟨out, ?_, ?_⟩
        · simp [encrLoop, Reader_Read_fits ch chunks bufSize hch, he, completed_zero]
        · rw [List.length_nil, Nat.min_zero, completed_zero, List.take_zero, Out_encode_nil]
          exact Writer_budget_zero _ _ hb
    | cons nonce nonces =>
      have hnonce : nonce.length = c.gcm.NonceSize := hn nonce (List.mem_cons_self _ _)
      obtain ⟨e1, e2, e3⟩ := Encrypt_ok c randReader ch nonce (nonces.flatten ++ more)
        (by rw [hrng, List.flatten_cons, List.append_assoc]) hnonce
      rcases he : c.Encrypt randReader ch with ⟨ct, e, rng1⟩
      rw [he] at e1 e2 e3
      simp only at e1 e2 e3
      subst e1 e2
      have hframe : PutUint32 ((crypted c.gcm nonce ch).length % 2 ^ 32) ++ crypted c.gcm nonce ch =
          frame c.gcm nonce ch := by
        rw [PutUint32_mod, frame]
      have hmin : min (ch :: chunks).length (nonce :: nonces).length =
          min chunks.length nonces.length + 1 := by
        simp only [List.length_cons]
        omega
      by_cases hdead : budget = some 0
      · subst hdead
        obtain ⟨d1, d2⟩ := Out_Write_dead out (frame c.gcm nonce ch) hb
        rcases hw : out.Write (frame c.gcm nonce ch) with ⟨n, e, out1⟩
        rw [hw] at d1 d2
        simp only at d1 d2
        subst d1
        refine ⟨out1, ?_, ?_⟩
        · simp only [encrLoop, Reader_Read_fits ch chunks bufSize hch, he, hframe, hw,
            completed_dead]
          rfl
        · rw [completed_dead, List.take_zero, Out_encode_nil, d2]
          exact Writer_budget_zero _ _ hb
      · have hlive : out.base.budget ≠ some 0 := by rw [hb]; exact hdead
        obtain ⟨h1, h2, h3⟩ := Out_Write_live out (frame c.gcm nonce ch) hlive
        rcases hw : out.Write (frame c.gcm nonce ch) with ⟨n, e, out1⟩
        rw [hw] at h1 h2 h3
        simp only at h1 h2 h3
        subst h1
        obtain ⟨out2, hrun, hbase⟩ := ih nonces k out1 (budget.map (fun m => m - 1)) rng1 more
          (fun x hx => hfit x (List.mem_cons_of_mem _ hx))
          (fun x hx => hn x (List.mem_cons_of_mem _ hx)) e3
          (by
            rcases hmore with h | h
            · exact Or.inl h
            · exact Or.inr (by simpa using h))
          (by rw [h2, hb]) (by simp at hk; omega)
        refine ⟨out2, ?_, ?_⟩
        · simp only [encrLoop, Reader_Read_fits ch chunks bufSize hch, he, hframe, hw, hmin,
            completed_succ _ budget hdead, List.drop_succ_cons]
          exact hrun
        · rw [hbase, h2, hmin, completed_succ _ budget hdead, List.zipWith_cons_cons,
            List.take_succ_cons,
            h3 (List.take (completed (min chunks.length nonces.length)
              (budget.map (fun m => m - 1))) (List.zipWith (frame c.gcm) nonces chunks)),
            List.append_assoc, budget_after]

/-- C8, amended. In `shift` and `encr` a source read that returns zero bytes and no error
is handled like every other successful read and does not end the loop.  For source reads
returning the chunks `chunks` (any of them may be empty) and then an error, a destination
on which `budget` writes succeed before one fails (`none`: none fails) and, for `encr`, a
random source that supplies the nonces `nonces` before it fails, each loop completes exactly
as many iterations as meet no error: it writes the chunks (for `encr`, their frames) of
those iterations in order, the empty ones included, goes on with the next read after every
write that succeeds, and returns at the first read, encryption or write that reports an
error, and not before. -/
theorem relay_ends_at_first_error (source : Int → Nat → UInt8) (c : AESCrypt)
    (bufSize minimal_chunk : Nat) (seed : Option Int) (budget : Option Nat)
    (chunks nonces : List Bytes) (randReader : Reader) (more : Bytes) (k : Nat)
    (hfit : ∀ ch ∈ chunks, ch.length ≤ bufSize)
    (hn : ∀ n ∈ nonces, n.length = c.gcm.NonceSize)
    (hrng : randReader.pending.flatten = nonces.flatten ++ more)
    (hmore : more.length < c.gcm.NonceSize ∨ chunks.length ≤ nonces.length)
    (hk : chunks.length < k) :
    shift source k ⟨chunks⟩ ⟨[], budget⟩ bufSize seed =
      some ⟨⟨chunks.drop (completed chunks.length budget + 1)⟩,
        ⟨onWire source seed (chunks.take (completed chunks.length budget)),
          budget.map (fun m => m - completed chunks.length budget)⟩,
        true, true, .returned⟩ ∧
    encr source k ⟨chunks⟩ ⟨[], budget⟩ bufSize minimal_chunk c seed randReader =
      some ⟨⟨chunks.drop (completed (min chunks.length nonces.length) budget + 1)⟩,
        ⟨onWire source seed ((List.zipWith (frame c.gcm) nonces chunks).take
            (completed (min chunks.length nonces.length) budget)),
          budget.map (fun m => m - completed (min chunks.length nonces.length) budget)⟩,
        true, true, .returned⟩ := by
  constructor
  · cases seed with
    | none =>
      obtain ⟨out2, h1, h2⟩ := shiftLoop_exact bufSize chunks k (.plain ⟨[], budget⟩) budget
        hfit rfl hk
      simp only [shift, h1, h2]
      rfl
    | some s =>
      obtain ⟨out2, h1, h2⟩ := shiftLoop_exact bufSize chunks k
        (.xor (NewXorWriter ⟨[], budget⟩ (NewRand source s))) budget hfit rfl hk
      simp only [shift, h1, h2]
      rfl
  · cases seed with
    | none =>
      obtain ⟨out2, h1, h2⟩ := encrLoop_exact c bufSize chunks nonces k (.plain ⟨[], budget⟩)
        budget randReader more hfit hn hrng hmore rfl hk
      simp only [encr, h1, h2]
      rfl
    | some s =>
      obtain ⟨out2, h1, h2⟩ := encrLoop_exact c bufSize chunks nonces k
        (.xor (NewXorWriter ⟨[], budget⟩ (NewRand source s))) budget randReader more hfit hn
        hrng hmore rfl hk
      simp only [encr, h1, h2]
      rfl

theorem relay_ends_at_first_error_witness :
    (∀ ch ∈ ([[], [1, 2], [], [3]] : List Bytes), ch.length ≤ 4) ∧
    (∀ n ∈ ([List.replicate 12 9, List.replicate 12 8] : List Bytes),
      n.length = (⟨toyAEAD⟩ : AESCrypt).gcm.NonceSize) ∧
    (⟨[List.replicate 12 9, List.replicate 12 8, [5]]⟩ : Reader).pending.flatten =
      ([List.replicate 12 9, List.replicate 12 8] : List Bytes).flatten ++ [5] ∧
    (([5] : Bytes).length < (⟨toyAEAD⟩ : AESCrypt).gcm.NonceSize ∨
      ([[], [1, 2], [], [3]] : List Bytes).length ≤
        ([List.replicate 12 9, List.replicate 12 8] : List Bytes).length) ∧
    shift toySource 5 ⟨[[], [1, 2], [], [3]]⟩ ⟨[], some 3⟩ 4 none =
      some ⟨⟨[]⟩, ⟨[[], [1, 2], []], some 0⟩, true, true, .returned⟩ ∧
    encr toySource 5 ⟨[[], [1, 2], [], [3]]⟩ ⟨[], some 3⟩ 4 4 ⟨toyAEAD⟩ none
        ⟨[List.replicate 12 9, List.replicate 12 8, [5]]⟩ =
      some ⟨⟨[[3]]⟩,
        ⟨[[0, 0, 0, 28] ++ List.replicate 12 9 ++ List.replicate 16 0,
          [0, 0, 0, 30] ++ List.replicate 12 8 ++ [1, 2] ++ List.replicate 16 0], some 1⟩,
        true, true, .returned⟩ :=
  ⟨by decide, by decide, by decide, by decide,
    relay_ends_at_first_error toySource ⟨toyAEAD⟩ 4 4 none (some 3) [[], [1, 2], [], [3]]
      [List.replicate 12 9, List.replicate 12 8]
      ⟨[List.replicate 12 9, List.replicate 12 8, [5]]⟩ [5] 5 (by decide) (by decide)
      (by decide) (by decide) (by decide)⟩

/-! ## Oversized length header -/

theorem decrLoop_oversized_header (c : AESCrypt) (k bufLen : Nat) (inp : Inp) (output : Writer)
    (header more : Bytes) (hs : inp.stream = header ++ more) (hh : header.length = 4)
    (hbig : bufLen < Uint32 header) :
    ∃ inp2, decrLoop (k + 1) inp output bufLen c =
      some (inp2, output, .panicked (.sliceBounds (Uint32 header) bufLen)) := by
  obtain ⟨a1, a2, _, _⟩ := ReadFull_stream inp 4 header more hs hh
  rcases hr : ReadFull inp 4 with ⟨lnb, e, inp1⟩
  rw [hr] at a1 a2
  simp only at a1 a2
  subst a1 a2
  exact ⟨inp1, by simp [decrLoop, hr, hbig]⟩

/-- C6. With buffer size 1024 the decode buffer of `decr` has 2048 bytes; on the header
`00 00 08 01` (2049) `decr` slices the buffer out of range: it ends by a panic, not by a
return, having written nothing. -/
theorem decr_oversized_header_panics :
    decr toySource 2 ⟨[[0, 0, 8, 1], [5, 5]]⟩ ⟨[], none⟩ 1024 ⟨toyAEAD⟩ none =
      some ⟨⟨[[5, 5]]⟩, ⟨[], none⟩, true, true, .panicked (.sliceBounds 2049 2048)⟩ := by
  decide

/-! ## Size of the decode buffer -/

theorem Encrypt_length (c : AESCrypt) (hlen : c.gcm.SealLength) (randReader : Reader)
    (plain : Bytes) (hok : (c.Encrypt randReader plain).2.1 = none) :
    (c.Encrypt randReader plain).1.length = c.gcm.NonceSize + plain.length + c.gcm.Overhead := by
  obtain ⟨nonce, hn, hct⟩ := Encrypt_shape c randReader plain hok
  rw [hct, crypted_length c.gcm hlen, hn]

/-- C10, as stated, fails: for the read-chunk size 1 the decode buffer of `decr` has 2
bytes, fewer than the 29 bytes of the longest ciphertext `encr` produces with that size. -/
theorem decode_buffer_too_small :
    decrBufLen 1 = 2 ∧ ¬ (1 + gcmStandardNonceSize + gcmTagSize ≤ decrBufLen 1) := by
  decide

/-- C10, amended. For every read-chunk size `B` below `2^15` the decode buffer of `decr` has
`2 * B` bytes, and it is at least as long as the longest ciphertext `encr` can produce with
the same `B`, namely `B` plus the nonce size (12) plus the tag size (16), exactly when `B` is
at least 28. -/
theorem decode_buffer_bound (bufSize : Nat) (hB : bufSize < 2 ^ 15) :
    decrBufLen bufSize = 2 * bufSize ∧
    (bufSize + gcmStandardNonceSize + gcmTagSize ≤ decrBufLen bufSize ↔
      gcmStandardNonceSize + gcmTagSize ≤ bufSize) := by
  rw [decrBufLen_small bufSize hB]
  simp only [gcmStandardNonceSize, gcmTagSize]
  refine ⟨trivial, ?_⟩
  constructor <;> intro h <;> omega

theorem decode_buffer_bound_witness :
    (1024 : Nat) < 2 ^ 15 ∧ decrBufLen 1024 = 2 * 1024 ∧
    (1024 + gcmStandardNonceSize + gcmTagSize ≤ decrBufLen 1024 ↔
      gcmStandardNonceSize + gcmTagSize ≤ 1024) :=
  ⟨by decide, decode_buffer_bound 1024 (by decide)⟩

theorem decrBufLen_wraps : decrBufLen 32768 = 0 ∧ decrBufLen 40000 = 14464 := by
  decide

end Ett
